import Mathlib

/-!
Shallow embedding of parts of the gdc-uploader repository, and proofs of
claims about them.

Embedded source files:
- specs/interfaces/exceptions_interface.py (error codes, ExitCodes)
- src/gdc_uploader/core/retry.py (RetryConfig, RetryManager)
- src/gdc_uploader/core/utils.py (sanitize_filename, batch_items, merge_metadata)
- src/gdc_uploader/api/client.py (TokenBucket)
- src/gdc_uploader/core/progress.py (ThreadSafeProgressTracker)
- cwl/gdc_filter_json.py (filter_json_by_filename)
- legacy/scripts/gdc_split_json.py (sanitize_filename, split_json_by_filename)

Python floats are embedded as rationals, Python ints as Int/Nat, Python
strings as String, JSON values as an inductive type, and the Python object
heap (where aliasing matters, for merge_metadata) as a list of dictionaries
indexed by address.
-/

/-! ### Error taxonomy and exit codes (specs/interfaces/exceptions_interface.py) -/

/-- Exit-code constants of class ExitCodes. -/
def ExitCodes.SUCCESS : Int := 0

def ExitCodes.GENERAL_ERROR : Int := 1

def ExitCodes.UPLOAD_FAILED : Int := 2

def ExitCodes.INVALID_METADATA : Int := 3

def ExitCodes.FILE_NOT_FOUND : Int := 4

def ExitCodes.AUTHENTICATION_ERROR : Int := 5

def ExitCodes.CONFIGURATION_ERROR : Int := 6

def ExitCodes.VALIDATION_ERROR : Int := 7

/-- A GDCUploaderError carries a message and an error code such as "E101".
The details map is omitted: no embedded operation reads it. -/
structure GDCUploaderError where
  message : String
  error_code : String
deriving DecidableEq

/-- The dictionary literal `mapping` inside ExitCodes.from_exception. -/
def ExitCodes.mapping : List (Char × Int) :=
  [('1', ExitCodes.FILE_NOT_FOUND),
   ('2', ExitCodes.INVALID_METADATA),
   ('3', ExitCodes.AUTHENTICATION_ERROR),
   ('4', ExitCodes.UPLOAD_FAILED),
   ('5', ExitCodes.VALIDATION_ERROR),
   ('6', ExitCodes.CONFIGURATION_ERROR),
   ('7', ExitCodes.GENERAL_ERROR),
   ('8', ExitCodes.CONFIGURATION_ERROR)]

/-- Python dict .get with a default value, over an association list. -/
def dictGetD (l : List (Char × Int)) (k : Char) (d : Int) : Int :=
  match l.find? (fun p => p.1 == k) with
  | some p => p.2
  | none => d

/-- ExitCodes.from_exception: reads error_code[1] (none if the code string is
shorter than 2 characters, where Python would raise IndexError) and looks it
up in the mapping with default GENERAL_ERROR. -/
def ExitCodes.from_exception (error : GDCUploaderError) : Option Int :=
  (error.error_code.data.get? 1).map
    (fun c => dictGetD ExitCodes.mapping c ExitCodes.GENERAL_ERROR)

/-- The error codes defined in specs/interfaces/exceptions_interface.py. -/
def definedErrorCodes : List String :=
  ["E101", "E102", "E201", "E202", "E301", "E302", "E401", "E402", "E403",
   "E501", "E502", "E601", "E602", "E701", "E702", "E801", "E802"]

/-- The leading-digit exit-code rule as the code actually implements it
(E1xx to 4, E2xx to 3, E3xx to 5, E4xx to 2, E5xx to 7, E6xx to 6,
E7xx to 1, E8xx to 6). Spec-side statement of the amended rule, written
independently of the dictionary in from_exception. -/
def leadingDigitRule (c : Char) : Int :=
  if c = '1' then 4
  else if c = '2' then 3
  else if c = '3' then 5
  else if c = '4' then 2
  else if c = '5' then 7
  else if c = '6' then 6
  else if c = '7' then 1
  else if c = '8' then 6
  else 1

/-! ### Retry subsystem (src/gdc_uploader/core/retry.py) -/

/-- RetryStrategy enum. -/
inductive RetryStrategy where
  | immediate
  | linear
  | exponential
  | fibonacci
deriving DecidableEq

/-- RetryConfig dataclass (delay-relevant and retry-decision fields; the
logging/callback fields carry no behavior in this embedding). Floats are
embedded as rationals. -/
structure RetryConfig where
  max_attempts : Nat := 3
  strategy : RetryStrategy := .exponential
  initial_delay : ℚ := 1
  max_delay : ℚ := 300
  jitter : Bool := true
  jitter_factor : ℚ := 1/10
  backoff_base : ℚ := 2
  backoff_multiplier : ℚ := 1
  retry_http_codes : List Int := [408, 429, 500, 502, 503, 504]

/-- The loop `for _ in range(2, n + 1): a, b = b, a + b` of
RetryConfig._fibonacci_delay, with the iteration count as fuel. -/
def fibLoop (a b : ℚ) : Nat → ℚ
  | 0 => b
  | k + 1 => fibLoop b (a + b) k

/-- RetryConfig._fibonacci_delay: returns initial_delay for n <= 1, else runs
the loop for n - 1 iterations (range(2, n + 1)). -/
def RetryConfig.fibonacci_delay (cfg : RetryConfig) (n : Nat) : ℚ :=
  if n ≤ 1 then cfg.initial_delay
  else fibLoop cfg.initial_delay cfg.initial_delay (n - 1)

/-- RetryConfig.calculate_delay. The uniform random jitter sample is passed in
as a parameter u (modeling random.uniform(-1, 1); the code draws
random.uniform(-jitter_range, jitter_range) = jitter_range * u). -/
def RetryConfig.calculate_delay (cfg : RetryConfig) (attempt : Nat) (u : ℚ) : ℚ :=
  let d : ℚ :=
    match cfg.strategy with
    | .immediate => 0
    | .linear => cfg.initial_delay * attempt
    | .exponential => cfg.initial_delay * cfg.backoff_base ^ (attempt - 1)
    | .fibonacci => cfg.fibonacci_delay attempt
  let d := d * cfg.backoff_multiplier
  let d := min d cfg.max_delay
  let d := if cfg.jitter ∧ 0 < d then d + d * cfg.jitter_factor * u else d
  max 0 d

/-- The n-th term of the Fibonacci sequence whose first two terms are both d:
term 1 = d, term 2 = d, term (n+2) = term n + term (n+1). Equals d * fib n in
Mathlib's indexing. Spec-side definition for claim C4. -/
def fibSeedTerm (d : ℚ) (n : Nat) : ℚ := d * Nat.fib n

/-- Classification data for exceptions, modeling the isinstance checks of
RetryConfig.should_retry: membership in dont_retry_on, membership in
retry_on, and (for requests exceptions that carry a response) the HTTP
status code. -/
structure ExceptionModel (E : Type) where
  in_dont_retry_on : E → Bool
  in_retry_on : E → Bool
  http_status : E → Option Int

/-- RetryConfig.should_retry: the dont-retry set wins, then the retry set
must match, then a requests exception carrying a response must have its
status code in retry_http_codes. -/
def shouldRetry {E : Type} (cfg : RetryConfig) (m : ExceptionModel E) (e : E) : Bool :=
  if m.in_dont_retry_on e then false
  else if !(m.in_retry_on e) then false
  else
    match m.http_status e with
    | some st => cfg.retry_http_codes.contains st
    | none => true

/-- Result of one call of the wrapped function: a return value or a raised
exception. The function is indexed by the (1-based) attempt number. -/
inductive CallResult (E α : Type) where
  | ok (v : α)
  | err (e : E)

/-- Overall outcome of RetryManager.execute: a returned value, a raised
exception, or the implicit None that Python returns when max_attempts < 1
(the for loop body never runs and last_exception is None). -/
inductive ExecOutcome (E α : Type) where
  | value (v : α)
  | raised (e : E)
  | noneResult

/-- The attempt loop of RetryManager.execute. `remaining` counts the loop
iterations left (max_attempts - attempt + 1); `attempt` is the 1-based
attempt number. Returns the outcome paired with the number of invocations of
the wrapped function. Delays are computed but sleeping has no observable
effect in this embedding. -/
def executeGo {E α : Type} (cfg : RetryConfig) (m : ExceptionModel E)
    (f : Nat → CallResult E α) : Nat → Nat → ExecOutcome E α × Nat
  | 0, _ => (.noneResult, 0)
  | remaining + 1, attempt =>
    match f attempt with
    | .ok v => (.value v, 1)
    | .err e =>
      if !(shouldRetry cfg m e) then (.raised e, 1)
      else if cfg.max_attempts ≤ attempt then (.raised e, 1)
      else
        let p := executeGo cfg m f remaining (attempt + 1)
        (p.1, p.2 + 1)

/-- RetryManager.execute: run the wrapped function for attempts
1 .. max_attempts. -/
def RetryManager.execute {E α : Type} (cfg : RetryConfig) (m : ExceptionModel E)
    (f : Nat → CallResult E α) : ExecOutcome E α × Nat :=
  executeGo cfg m f cfg.max_attempts 1

/-! ### sanitize_filename and batch_items (src/gdc_uploader/core/utils.py) -/

/-- The string literal invalid_chars of utils.sanitize_filename. -/
def invalidChars : List Char := ['<', '>', ':', '"', '|', '?', '*']

/-- Python str.replace for a single character: filename.replace(c, '_'). -/
def replaceWithUnderscore (s : List Char) (c : Char) : List Char :=
  s.map (fun x => if x = c then '_' else x)

/-- Python list slice l[:k] for a possibly negative k. -/
def pySlice (l : List Char) (k : Int) : List Char :=
  if 0 ≤ k then l.take k.toNat else l.take (l.length - (-k).toNat)

/-- Last index of c in l, or -1 when absent (Python str.rfind). -/
def lastIndexOf (l : List Char) (c : Char) : Int :=
  (l.foldl (fun (p : Int × Int) ch =>
    (p.1 + 1, if ch = c then p.1 + 1 else p.2)) (-1, -1)).2

/-- os.path.splitext on a character list (posix rules): the extension starts
at the last dot after the last separator, unless every character between the
separator and that dot is itself a dot (leading dots of the basename are not
extension separators). -/
def pySplitExt (p : List Char) : List Char × List Char :=
  let sepIdx := lastIndexOf p '/'
  let dotIdx := lastIndexOf p '.'
  if sepIdx < dotIdx ∧
      (p.enum.any (fun ic =>
        decide (sepIdx < (ic.1 : Int)) && decide ((ic.1 : Int) < dotIdx) &&
        (ic.2 != '.'))) then
    (p.take dotIdx.toNat, p.drop dotIdx.toNat)
  else (p, [])

/-- The cleanup phase of utils.sanitize_filename: replace each character of
invalid_chars with an underscore (a fold of str.replace calls), then remove
control characters (ord < 32). -/
def sanitizeClean (filename : String) : List Char :=
  (invalidChars.foldl replaceWithUnderscore filename.data).filter
    (fun c => 32 ≤ c.toNat)

/-- utils.sanitize_filename: cleanup, then if the length exceeds 255 keep
base[:255 - len(ext)] + ext from os.path.splitext. Lengths are Python str
lengths, i.e. character counts. -/
def sanitize_filename (filename : String) : String :=
  let cs := sanitizeClean filename
  if 255 < cs.length then
    let pe := pySplitExt cs
    String.mk (pySlice pe.1 (255 - (pe.2.length : Int)) ++ pe.2)
  else String.mk cs

/-- Pointwise form of the fold of str.replace calls: any character from
invalid_chars becomes an underscore. Spec-side characterization used in the
amended claim C7. -/
def replaceInvalid (c : Char) : Char := if c ∈ invalidChars then '_' else c

/-- Python range(0, stop, step) for step >= 1. -/
def pyRangeStep (stop step : Nat) : List Nat :=
  (List.range ((stop + step - 1) / step)).map (· * step)

/-- utils.batch_items: [items[i:i + batch_size] for i in
range(0, len(items), batch_size)]. -/
def batch_items {α : Type} (items : List α) (batch_size : Nat) : List (List α) :=
  (pyRangeStep items.length batch_size).map
    (fun i => (items.drop i).take batch_size)

/-! ### TokenBucket rate limiter (src/gdc_uploader/api/client.py) -/

/-- TokenBucket state: capacity, current tokens, refill rate (tokens per
second) and the wall-clock instant of the last refill. Floats are embedded
as rationals. (The source's `_lock = False` placeholder performs no mutual
exclusion and has no sequential behavior, so it is not modeled.) -/
structure TokenBucket where
  capacity : ℚ
  tokens : ℚ
  refill_rate : ℚ
  last_refill : ℚ

/-- TokenBucket.__init__(tokens, refill_rate): capacity and tokens start
equal; last_refill is the construction instant. -/
def TokenBucket.init (tokens refill_rate now : ℚ) : TokenBucket :=
  { capacity := tokens, tokens := tokens, refill_rate := refill_rate,
    last_refill := now }

/-- TokenBucket.refill at wall-clock instant now. -/
def TokenBucket.refill (b : TokenBucket) (now : ℚ) : TokenBucket :=
  let elapsed := now - b.last_refill
  { b with tokens := min b.capacity (b.tokens + elapsed * b.refill_rate),
           last_refill := now }

/-- TokenBucket.consume(tokens) at wall-clock instant now: refill first, then
subtract if at least that many tokens are available. -/
def TokenBucket.consume (b : TokenBucket) (now : ℚ) (tokens : ℚ) :
    Bool × TokenBucket :=
  let b := b.refill now
  if tokens ≤ b.tokens then (true, { b with tokens := b.tokens - tokens })
  else (false, b)

/-- One call against the bucket, tagged with the wall-clock instant at which
time.time() is read inside it. -/
inductive BucketOp where
  | refillOp (now : ℚ)
  | consumeOp (now : ℚ) (n : ℚ)

/-- Wall-clock instant of an operation. -/
def BucketOp.now : BucketOp → ℚ
  | .refillOp t => t
  | .consumeOp t _ => t

/-- Amount requested by an operation (0 for a bare refill). -/
def BucketOp.amount : BucketOp → ℚ
  | .refillOp _ => 0
  | .consumeOp _ n => n

/-- Apply one operation to the bucket (the Bool result of consume is
discarded here; TokenBucket.consume exposes it). -/
def TokenBucket.applyOp (b : TokenBucket) : BucketOp → TokenBucket
  | .refillOp t => b.refill t
  | .consumeOp t n => (b.consume t n).2

/-- Apply a sequence of operations. -/
def TokenBucket.applyOps (b : TokenBucket) (ops : List BucketOp) : TokenBucket :=
  ops.foldl TokenBucket.applyOp b

/-- A trace is valid when wall-clock time never runs backwards relative to
the bucket's last refill and consume amounts are non-negative. -/
def TokenBucket.traceOK (b : TokenBucket) : List BucketOp → Prop
  | [] => True
  | op :: rest =>
    (b.last_refill ≤ op.now ∧ 0 ≤ op.amount) ∧ (b.applyOp op).traceOK rest

/-! ### JSON values (shared by the manifest filter and split utilities) -/

/-- JSON values. Numbers occurring in the embedded manifests and in the
counts the utilities write are integers. -/
inductive JVal where
  | null
  | jbool (b : Bool)
  | jnum (n : Int)
  | jstr (s : String)
  | jarr (elems : List JVal)
  | jobj (fields : List (String × JVal))

/-- Python dict lookup d[k] on a JSON object: first matching key. -/
def lookupKey (fields : List (String × JVal)) (k : String) : Option JVal :=
  (fields.find? (fun p => p.1 == k)).map (fun p => p.2)

/-- Python dict assignment d[k] = v: replace the value at the first matching
key, or append a new key at the end. Also models writing a file into a
directory listing (same overwrite-or-create behavior). -/
def setFirst {α : Type} (l : List (String × α)) (k : String) (v : α) :
    List (String × α) :=
  match l with
  | [] => [(k, v)]
  | p :: rest => if p.1 == k then (k, v) :: rest else p :: setFirst rest k v

/-! ### filter_json_by_filename (cwl/gdc_filter_json.py) -/

/-- Substring test needle in hay (Python `in` on str). -/
def containsSubstr (hay needle : String) : Bool :=
  hay.data.tails.any (fun t => needle.data.isPrefixOf t)

/-- Python str.lower (character-wise lowering). -/
def pyLower (s : String) : String := String.mk (s.data.map Char.toLower)

/-- Match decision for one entry of the files array: some true when the
entry is an object whose file_name matches the target (exactly under
strict, case-insensitive substring otherwise); some false when the entry is
skipped (not an object, no file_name) or does not match; none when the code
raises (non-strict mode calls .lower() on a non-string file_name, an
AttributeError that aborts the whole function). -/
def entryMatch (strict : Bool) (target : String) (e : JVal) : Option Bool :=
  match e with
  | .jobj fields =>
    match lookupKey fields "file_name" with
    | some (.jstr name) =>
      if strict then some (name == target)
      else some (containsSubstr (pyLower name) (pyLower target))
    | some _ => if strict then some false else none
    | none => some false
  | _ => some false

/-- The filter loop: collect matching entries in order, aborting on the
first entry whose match decision raises. -/
def collectMatches (strict : Bool) (target : String) :
    List JVal → Option (List JVal)
  | [] => some []
  | e :: rest =>
    match entryMatch strict target e with
    | none => none
    | some m =>
      (collectMatches strict target rest).map
        (fun ms => if m then e :: ms else ms)

/-- Extract the files array: a bare array is itself the array; an object
must have a "files" key holding an array; anything else is an error. -/
def getFilesArray (data : JVal) : Option (List JVal) :=
  match data with
  | .jarr l => some l
  | .jobj fields =>
    match lookupKey fields "files" with
    | some (.jarr l) => some l
    | _ => none
  | _ => none

/-- filter_json_by_filename (the JSON transformation of lines 41-110; file
I/O around it is not modeled): none models every return False path (bad
structure, a raised AttributeError, or no matching files); some gives the
JSON document written out. -/
def filter_json_by_filename (data : JVal) (target : String) (strict : Bool) :
    Option JVal :=
  match getFilesArray data with
  | none => none
  | some files =>
    match collectMatches strict target files with
    | none => none
    | some matching =>
      if matching.isEmpty then none
      else
        match data with
        | .jarr _ => some (.jarr matching)
        | _ => some (.jobj
            [("files", .jarr matching),
             ("_filter_info", .jobj
               [("target_filename", .jstr target),
                ("original_count", .jnum files.length),
                ("filtered_count", .jnum matching.length),
                ("match_type", .jstr (if strict then "exact" else "partial"))])])

/-- Boolean form of a successful match, used to state which entries the
filter keeps. -/
def entryMatches (strict : Bool) (target : String) (e : JVal) : Bool :=
  entryMatch strict target e == some true

/-! ### split_json_by_filename (legacy/scripts/gdc_split_json.py) -/

/-- Python regex word character for the ASCII range: [a-zA-Z0-9_]. -/
def isWordChar (c : Char) : Bool := c.isAlphanum || c == '_'

/-- re.sub(r'[^\w\-_\.]', '_', filename): keep word characters, hyphen, dot;
replace everything else with an underscore. -/
def replaceNonWord (cs : List Char) : List Char :=
  cs.map (fun c => if isWordChar c || c == '-' || c == '.' then c else '_')

/-- re.sub(r'_+', '_', s): collapse each run of underscores to one. -/
def collapseUnderscores : List Char → List Char
  | [] => []
  | [c] => [c]
  | a :: b :: t =>
    if a == '_' && b == '_' then collapseUnderscores (b :: t)
    else a :: collapseUnderscores (b :: t)

/-- Python str.strip('_'): drop leading and trailing underscores. -/
def stripUnderscores (cs : List Char) : List Char :=
  ((cs.dropWhile (fun c => c == '_')).reverse.dropWhile
    (fun c => c == '_')).reverse

/-- gdc_split_json.sanitize_filename: replace non-word characters, collapse
runs of underscores, strip leading/trailing underscores. -/
def sanitizeSplitName (filename : String) : String :=
  String.mk (stripUnderscores (collapseUnderscores (replaceNonWord filename.data)))

/-- Output filename for one entry: prefix + sanitized file_name + suffix +
".json" ("" in the impossible cases guarded away by the hypotheses of the
amended claim C3). -/
def entryOutName (pfx sfx : String) (e : JVal) : String :=
  match e with
  | .jobj fields =>
    match lookupKey fields "file_name" with
    | some (.jstr name) => pfx ++ sanitizeSplitName name ++ sfx ++ ".json"
    | _ => ""
  | _ => ""

/-- The split loop over the files array. dir is the output directory listing
(filename to written JSON document); writing an existing name overwrites it.
Entries that are not objects or lack file_name are skipped with a warning; a
non-string file_name raises TypeError inside re.sub, aborting the function
(none; files already written stay on disk but the run reports failure). -/
def splitGo (pfx sfx : String) (dir : List (String × JVal)) :
    List JVal → Option (List (String × JVal))
  | [] => some dir
  | e :: rest =>
    match e with
    | .jobj fields =>
      match lookupKey fields "file_name" with
      | some (.jstr _) =>
        splitGo pfx sfx
          (setFirst dir (entryOutName pfx sfx e)
            (.jobj [("files", .jarr [e])])) rest
      | some _ => none
      | none => splitGo pfx sfx dir rest
    | _ => splitGo pfx sfx dir rest

/-- split_json_by_filename (the JSON-splitting core; path handling and
directory creation are not modeled): requires a JSON object with a "files"
array, then writes one file per valid entry. Returns the final directory
listing in creation order, or none on a structure error or mid-run
exception. -/
def split_json_by_filename (data : JVal) (pfx sfx : String) :
    Option (List (String × JVal)) :=
  match data with
  | .jobj fields =>
    match lookupKey fields "files" with
    | some (.jarr files) => splitGo pfx sfx [] files
    | some _ => none
    | none => none
  | _ => none

/-! ### merge_metadata (src/gdc_uploader/core/utils.py) over an explicit heap

merge_metadata mutates and allocates Python dicts, so the claim that it
leaves its inputs unmodified is about the object heap. The heap is a list of
dictionaries; an address is an index; allocation appends. -/

/-- A value stored in a metadata dictionary: a primitive (string or int) or
a reference to another dictionary on the heap. -/
inductive PyVal where
  | pstr (s : String)
  | pint (n : Int)
  | pdict (addr : Nat)
deriving DecidableEq

/-- A Python dictionary: ordered key/value pairs with unique keys. -/
abbrev PyDict := List (String × PyVal)

/-- The heap: dictionary objects indexed by address. -/
abbrev Heap := List PyDict

/-- Read the dictionary at an address. -/
def heapGet (h : Heap) (a : Nat) : Option PyDict := h.get? a

/-- Overwrite the dictionary at an address. -/
def heapSet (h : Heap) (a : Nat) (d : PyDict) : Heap := h.set a d

/-- Python dict assignment for PyDict values (first matching key replaced,
else appended), reusing setFirst's semantics. -/
def pdSet (l : PyDict) (k : String) (v : PyVal) : PyDict :=
  match l with
  | [] => [(k, v)]
  | p :: rest => if p.1 == k then (k, v) :: rest else p :: pdSet rest k v

/-- Python dict lookup for PyDict values. -/
def pdGet (l : PyDict) (k : String) : Option PyVal :=
  (l.find? (fun p => p.1 == k)).map (fun p => p.2)

mutual

/-- utils.merge_metadata(base, updates) over the heap: allocate
result = base.copy() at a fresh address, then fold the update entries into
it. fuel bounds the recursion depth (Python recurses on the structure and
would not terminate on a cyclic heap); with enough fuel the behavior is the
source's. Returns the result address and the new heap. -/
def merge_metadata : Nat → Heap → Nat → Nat → Option (Nat × Heap)
  | 0, _, _, _ => none
  | fuel + 1, h, baseA, updA =>
    match heapGet h baseA, heapGet h updA with
    | some bD, some uD =>
      (mergeLoop fuel (h ++ [bD]) h.length uD).map (fun h2 => (h.length, h2))
    | _, _ => none

/-- The loop `for key, value in updates.items()` of merge_metadata, mutating
the result dictionary at address r: when the key is present in the result
and both sides are dictionaries, recursively merge; otherwise assign the
update value. -/
def mergeLoop : Nat → Heap → Nat → PyDict → Option Heap
  | 0, _, _, _ => none
  | fuel + 1, h, r, entries =>
    match entries with
    | [] => some h
    | (k, v) :: rest =>
      match heapGet h r with
      | none => none
      | some rD =>
        match pdGet rD k, v with
        | some (.pdict curA), .pdict vA =>
          (match merge_metadata fuel h curA vA with
           | none => none
           | some (m, h2) =>
             match heapGet h2 r with
             | none => none
             | some rD2 =>
               mergeLoop fuel (heapSet h2 r (pdSet rD2 k (.pdict m))) r rest)
        | _, _ => mergeLoop fuel (heapSet h r (pdSet rD k v)) r rest

end

/-- A dictionary value read back from the heap as a tree, for stating deep
equality of inputs before and after a merge. -/
inductive PyTree where
  | tstr (s : String)
  | tint (n : Int)
  | tdict (entries : List (String × PyTree))

mutual

/-- Read a value back from the heap to a bounded depth. -/
def readVal : Nat → Heap → PyVal → Option PyTree
  | 0, _, _ => none
  | _ + 1, _, .pstr s => some (.tstr s)
  | _ + 1, _, .pint n => some (.tint n)
  | fuel + 1, h, .pdict a =>
    match heapGet h a with
    | none => none
    | some d => (readEntries fuel h d).map PyTree.tdict

/-- Read each entry of a dictionary back from the heap. -/
def readEntries : Nat → Heap → PyDict → Option (List (String × PyTree))
  | 0, _, _ => none
  | _ + 1, _, [] => some []
  | fuel + 1, h, (k, v) :: rest =>
    match readVal fuel h v, readEntries fuel h rest with
    | some t, some ts => some ((k, t) :: ts)
    | _, _ => none

end

/-- Boolean well-formedness of one stored value: dictionary references stay
inside the heap. -/
def valWF (len : Nat) : PyVal → Bool
  | .pdict a => a < len
  | _ => true

/-- A heap is well-formed when every stored reference points into it (true
of any heap reachable in Python, where references cannot dangle). -/
def heapWF (h : Heap) : Prop :=
  ∀ d ∈ h, ∀ kv ∈ d, valWF h.length kv.2 = true

/-! ### ThreadSafeProgressTracker (src/gdc_uploader/core/progress.py)

The tracker's update channel is drained by a single worker that applies
_process_update to each queued update in FIFO order; the embedding is that
fold. Wall-clock timestamps are carried but never interpreted. -/

/-- UploadStatus enum (core/base_uploader.py). -/
inductive UploadStatus where
  | pending
  | in_progress
  | success
  | failed
  | not_found
  | skipped
deriving DecidableEq

/-- FileEntry dataclass (core/base_uploader.py); the path, md5sum and
metadata fields are not read by the tracker and are omitted here. -/
structure FileEntry where
  uuid : String
  filename : String
  size : Option Int := none
deriving DecidableEq

/-- `f.size or 0`: 0 when size is None (and 0 stays 0). -/
def FileEntry.sizeOr0 (f : FileEntry) : Int := f.size.getD 0

/-- The per-file statistics record created by initialize_files. -/
structure FileStat where
  filename : String
  size : Int
  status : UploadStatus
  start_time : Option Int
  end_time : Option Int
  transferred_bytes : Int
  attempts : Int
  error : Option String
deriving DecidableEq

/-- ProgressStats dataclass: aggregate counters plus the per-file map (an
insertion-ordered dictionary keyed by uuid). The derived-rate properties and
timestamps are not needed by any claim and are omitted. -/
structure ProgressStats where
  total_files : Int := 0
  completed_files : Int := 0
  failed_files : Int := 0
  skipped_files : Int := 0
  in_progress_files : Int := 0
  total_bytes : Int := 0
  transferred_bytes : Int := 0
  file_stats : List (String × FileStat) := []

/-- A queued update, as put by update_file_progress / mark_file_started /
mark_file_completed. -/
inductive Update where
  | progress (file_uuid : String) (transferred_bytes : Int) (total_bytes : Option Int)
  | started (file_uuid : String) (timestamp : Int)
  | completed (file_uuid : String) (success : Bool) (error : Option String)
      (timestamp : Int)
deriving DecidableEq

/-- The uuid an update addresses. -/
def Update.keyOf : Update → String
  | .progress u _ _ => u
  | .started u _ => u
  | .completed u _ _ _ => u

/-- Apply the given function to the value at the first matching key, leaving
the list unchanged when the key is absent (the code guards every mutation
with `if file_uuid in self._stats.file_stats`). -/
def updateFirst {α : Type} (l : List (String × α)) (k : String) (f : α → α) :
    List (String × α) :=
  match l with
  | [] => []
  | p :: rest =>
    if p.1 == k then (p.1, f p.2) :: rest else p :: updateFirst rest k f

/-- Lookup in the per-file map. -/
def statsGet (l : List (String × FileStat)) (k : String) : Option FileStat :=
  (l.find? (fun p => p.1 == k)).map (fun p => p.2)

/-- The per-file record literal created by initialize_files for one entry. -/
def initRecord (f : FileEntry) : FileStat :=
  { filename := f.filename
    size := f.sizeOr0
    status := .pending
    start_time := none
    end_time := none
    transferred_bytes := 0
    attempts := 0
    error := none }

/-- ThreadSafeProgressTracker.initialize_files: set total_files and
total_bytes and create one pending per-file record per entry (a duplicate
uuid overwrites the earlier record, as in a Python dict). -/
def initFiles (files : List FileEntry) (s : ProgressStats) : ProgressStats :=
  { s with
    total_files := files.length
    total_bytes := (files.map FileEntry.sizeOr0).sum
    file_stats := files.foldl
      (fun fs f => setFirst fs f.uuid (initRecord f)) s.file_stats }

/-- ThreadSafeProgressTracker._process_update. Each branch requires a truthy
(non-empty) file_uuid and an existing per-file record; a progress update
moves the aggregate transferred_bytes by the difference to the file's last
reported count and overwrites the record's size when a truthy (non-zero)
total is supplied; completion with success folds any remaining shortfall
between the record's size and its transferred count into the aggregate. -/
def processUpdate (s : ProgressStats) (u : Update) : ProgressStats :=
  match u with
  | .progress uuid transferred total =>
    if uuid ≠ "" then
      match statsGet s.file_stats uuid with
      | some fs =>
        let fs2 := { fs with transferred_bytes := transferred }
        let fs2 :=
          match total with
          | some t => if t ≠ 0 then { fs2 with size := t } else fs2
          | none => fs2
        { s with
          transferred_bytes := s.transferred_bytes + (transferred - fs.transferred_bytes)
          file_stats := updateFirst s.file_stats uuid (fun _ => fs2) }
      | none => s
    else s
  | .started uuid ts =>
    if uuid ≠ "" then
      match statsGet s.file_stats uuid with
      | some _ =>
        { s with
          in_progress_files := s.in_progress_files + 1
          file_stats := updateFirst s.file_stats uuid
            (fun fs => { fs with status := .in_progress, start_time := some ts }) }
      | none => s
    else s
  | .completed uuid success error ts =>
    if uuid ≠ "" then
      match statsGet s.file_stats uuid with
      | some fs =>
        let dec : Int := if fs.status = .in_progress then 1 else 0
        if success then
          { s with
            in_progress_files := s.in_progress_files - dec
            completed_files := s.completed_files + 1
            transferred_bytes := s.transferred_bytes +
              (if fs.transferred_bytes < fs.size then fs.size - fs.transferred_bytes
               else 0)
            file_stats := updateFirst s.file_stats uuid
              (fun fs0 => { fs0 with
                end_time := some ts
                status := .success
                transferred_bytes :=
                  if fs0.transferred_bytes < fs0.size then fs0.size
                  else fs0.transferred_bytes }) }
        else
          { s with
            in_progress_files := s.in_progress_files - dec
            failed_files := s.failed_files + 1
            file_stats := updateFirst s.file_stats uuid
              (fun fs0 => { fs0 with
                end_time := some ts
                status := .failed
                error := error }) }
      | none => s
    else s

/-- The update worker: drain the queue in FIFO order. -/
def runUpdates (s : ProgressStats) (us : List Update) : ProgressStats :=
  us.foldl processUpdate s

/-- The effect of one update on the per-file record it addresses (the record
transformation inside _process_update, used to state how a record evolves). -/
def entryStep (fs : FileStat) (u : Update) : FileStat :=
  match u with
  | .progress _ transferred total =>
    let fs2 := { fs with transferred_bytes := transferred }
    (match total with
     | some t => if t ≠ 0 then { fs2 with size := t } else fs2
     | none => fs2)
  | .started _ ts => { fs with status := .in_progress, start_time := some ts }
  | .completed _ success error ts =>
    if success then
      { fs with
        end_time := some ts
        status := .success
        transferred_bytes :=
          if fs.transferred_bytes < fs.size then fs.size else fs.transferred_bytes }
    else
      { fs with end_time := some ts, status := .failed, error := error }

/-- Sum of the per-file transferred counts. -/
def sumTransferred (l : List (String × FileStat)) : Int :=
  (l.map (fun p => p.2.transferred_bytes)).sum

/-- Whether an update is a successful completion that the aggregate
completed_files counter counts (key truthy and present). -/
def isCountedCompletion (keys : List String) (u : Update) : Bool :=
  match u with
  | .completed k true _ _ => k != "" && keys.contains k
  | _ => false

/-- Whether an update is mark_file_completed with success. -/
def isSuccCompletion (u : Update) : Bool :=
  match u with
  | .completed _ true _ _ => true
  | _ => false

/-! ### Concrete inputs used by witnesses and counterexamples -/

/-- Exception classification in which every exception is retryable. -/
def retryAllModel : ExceptionModel Unit :=
  { in_dont_retry_on := fun _ => false
    in_retry_on := fun _ => true
    http_status := fun _ => none }

/-- Exception classification in which no exception is retryable. -/
def retryNoneModel : ExceptionModel Unit :=
  { in_dont_retry_on := fun _ => true
    in_retry_on := fun _ => true
    http_status := fun _ => none }

/-- A manifest whose files array holds a non-string file_name entry and a
matching entry, for the counterexample to claim C6. -/
def dataC6 : JVal :=
  .jobj [("files", .jarr
    [.jobj [("file_name", .jnum 1)], .jobj [("file_name", .jstr "a")]])]

/-- A well-formed single-entry manifest, for the witness of claim C6. -/
def dataC6w : JVal :=
  .jobj [("files", .jarr [.jobj [("file_name", .jstr "a")]])]

/-- Two distinct entries sharing the same file_name, for the counterexample
to claim C3. -/
def entryC3a : JVal := .jobj [("file_name", .jstr "x"), ("id", .jnum 1)]

/-- Second entry with the same file_name as entryC3a. -/
def entryC3b : JVal := .jobj [("file_name", .jstr "x"), ("id", .jnum 2)]

/-- Manifest with two entries whose sanitized output filenames collide. -/
def dataC3 : JVal := .jobj [("files", .jarr [entryC3a, entryC3b])]

/-- Manifest with two entries with distinct file_names, for the witness of
claim C3. -/
def dataC3w : JVal := .jobj [("files", .jarr
  [.jobj [("file_name", .jstr "a")], .jobj [("file_name", .jstr "b")]])]

/-- A heap with two disjoint one-entry dictionaries, for the witness of
claim C10. -/
def heapC10 : Heap := [[("x", .pint 1)], [("y", .pint 2)]]

/-- The heap after merging heapC10's two dictionaries: the inputs unchanged
and the merged copy appended at address 2. -/
def heapC10' : Heap :=
  [[("x", .pint 1)], [("y", .pint 2)], [("x", .pint 1), ("y", .pint 2)]]

/-- Two tracked files sharing one uuid, for the counterexample to claim C2
(a duplicate uuid makes the second record overwrite the first, losing the
first file's bytes from the aggregate). -/
def filesC2 : List FileEntry :=
  [{ uuid := "u", filename := "f1", size := some 5 },
   { uuid := "u", filename := "f2", size := some 7 }]

/-- One successful completion per file of filesC2 (zero progress updates
then mark_file_completed(success=True), as the claim prescribes). -/
def updatesC2 : List Update :=
  [.completed "u" true none 0, .completed "u" true none 0]

/-- Two tracked files with distinct uuids, for the witness of claim C2. -/
def filesC2w : List FileEntry :=
  [{ uuid := "u1", filename := "f1", size := some 5 },
   { uuid := "u2", filename := "f2", size := some 3 }]

/-- A partial progress report on the first file (2 of 5 bytes) followed by
successful completions of both files. -/
def updatesC2w : List Update :=
  [.progress "u1" 2 none, .completed "u1" true none 10,
   .completed "u2" true none 11]

/-! ## Theorems -/

/-! ### Claim C1: exit-code mapping -/

/-- Claim C1, counterexample: the claim says E8xx codes map to exit code 1
(general-error), but from_exception maps the plugin-error code E801 to 6
(CONFIGURATION_ERROR). -/
theorem c1_counterexample :
    ExitCodes.from_exception { message := "Plugin not found", error_code := "E801" } =
      some 6 ∧
    ExitCodes.from_exception { message := "Plugin not found", error_code := "E801" } ≠
      some ExitCodes.GENERAL_ERROR := by
  constructor
  · rfl
  · decide

/-- Claim C1 as amended: for every defined core-library error code, the exit
code is determined totally by the code's leading digit, with E1xx mapping to
4, E2xx to 3, E3xx to 5, E4xx to 2, E5xx to 7, E6xx to 6, E7xx to 1 and
E8xx to 6 (configuration-error, not general-error); no defined code fails to
map. -/
theorem c1_exit_code_rule (msg code : String) (hc : code ∈ definedErrorCodes) :
    ExitCodes.from_exception { message := msg, error_code := code } =
      (code.data.get? 1).map leadingDigitRule ∧
    (ExitCodes.from_exception { message := msg, error_code := code }).isSome = true := by
  fin_cases hc <;> exact ⟨rfl, rfl⟩

/-- Witness for c1_exit_code_rule at the concrete code E101. -/
theorem c1_exit_code_rule_witness :
    ExitCodes.from_exception { message := "m", error_code := "E101" } = some 4 := by
  have h := c1_exit_code_rule "m" "E101" (by decide)
  exact h.1.trans (by decide)

/-! ### Claim C4: Fibonacci delay -/

/-- Claim C4, code-bug evaluation: with strategy FIBONACCI, initial_delay 1
and jitter disabled, calculate_delay(2) is 2, not the claimed (and
unit-tested, tests/unit/test_retry.py) second seeded-Fibonacci term 1: the
loop in _fibonacci_delay runs one iteration too many, so attempt n gets the
(n+1)-th term of the sequence seeded with initial_delay twice. -/
theorem c4_fibonacci_delay_eval :
    RetryConfig.calculate_delay
      { strategy := .fibonacci, initial_delay := 1, jitter := false } 2 0 = 2 ∧
    fibSeedTerm 1 2 = 1 ∧ (2 : ℚ) ≠ 1 := by
  refine ⟨?_, ?_, by norm_num⟩
  · norm_num [RetryConfig.calculate_delay, RetryConfig.fibonacci_delay, fibLoop]
  · norm_num [fibSeedTerm]

/-! ### Claim C5: retry invocation counts -/

/-- One-step unfolding of the execute loop. -/
theorem executeGo_succ {E α : Type} (cfg : RetryConfig) (m : ExceptionModel E)
    (f : Nat → CallResult E α) (r a : Nat) :
    executeGo cfg m f (r + 1) a =
      match f a with
      | .ok v => (.value v, 1)
      | .err e =>
        if !(shouldRetry cfg m e) then (.raised e, 1)
        else if cfg.max_attempts ≤ a then (.raised e, 1)
        else ((executeGo cfg m f r (a + 1)).1, (executeGo cfg m f r (a + 1)).2 + 1) :=
  rfl

/-- The exhaustion path of the execute loop: when every attempt raises a
retryable exception, running the loop from attempt a with r+1 iterations
left (a + r + 1 = max_attempts + 1) makes r+1 invocations and re-raises the
exception of the last attempt. -/
theorem executeGo_exhausts {E α : Type} (cfg : RetryConfig) (m : ExceptionModel E)
    (f : Nat → CallResult E α) (e : Nat → E) (k : Nat)
    (hmax : cfg.max_attempts = k)
    (hf : ∀ n, f n = .err (e n)) (hr : ∀ n, shouldRetry cfg m (e n) = true) :
    ∀ r a, a + (r + 1) = k + 1 →
      executeGo cfg m f (r + 1) a = (.raised (e k), r + 1) := by
  intro r
  induction r with
  | zero =>
    intro a ha
    have hak : a = k := by omega
    subst hak
    rw [executeGo_succ, hf a]
    simp [hr a, hmax]
  | succ r ih =>
    intro a ha
    have hlt : ¬ (cfg.max_attempts ≤ a) := by omega
    have step := ih (a + 1) (by omega)
    rw [executeGo_succ, hf a]
    simp [hr a, hlt, step]

/-- Claim C5: a function raising a retryable exception on every call, under
max_attempts = k >= 1, is invoked exactly k times and the exception of the
last attempt is re-raised; a function whose first call raises a
non-retryable exception is invoked exactly once and that exception
propagates. -/
theorem c5_retry_invocation_counts {E α : Type} (cfg : RetryConfig)
    (m : ExceptionModel E) (f : Nat → CallResult E α) (e : Nat → E) (k : Nat) :
    (cfg.max_attempts = k → 1 ≤ k → (∀ n, f n = .err (e n)) →
      (∀ n, shouldRetry cfg m (e n) = true) →
      RetryManager.execute cfg m f = (.raised (e k), k)) ∧
    (∀ e1 : E, 1 ≤ cfg.max_attempts → f 1 = .err e1 →
      shouldRetry cfg m e1 = false →
      RetryManager.execute cfg m f = (.raised e1, 1)) := by
  constructor
  · intro hmax hk hf hr
    obtain ⟨r, hrk⟩ : ∃ r, k = r + 1 := ⟨k - 1, by omega⟩
    have h := executeGo_exhausts cfg m f e k hmax hf hr r 1 (by omega)
    rw [RetryManager.execute, hmax, hrk]
    rw [hrk] at h
    exact h
  · intro e1 hmax hf hnr
    obtain ⟨r, hrk⟩ : ∃ r, cfg.max_attempts = r + 1 := ⟨cfg.max_attempts - 1, by omega⟩
    rw [RetryManager.execute, hrk, executeGo_succ, hf]
    simp [hnr]

/-- Witness for c5_retry_invocation_counts: with max_attempts 2 and an
always-raising retryable function, execute makes 2 invocations; with a
non-retryable error, 1 invocation. -/
theorem c5_retry_invocation_counts_witness :
    RetryManager.execute { max_attempts := 2 } retryAllModel
      (fun _ => .err () : Nat → CallResult Unit Unit) = (.raised (), 2) ∧
    RetryManager.execute { max_attempts := 2 } retryNoneModel
      (fun _ => .err () : Nat → CallResult Unit Unit) = (.raised (), 1) := by
  constructor
  · exact (c5_retry_invocation_counts { max_attempts := 2 } retryAllModel
      (fun _ => .err ()) (fun _ => ()) 2).1 rfl (by norm_num)
      (fun _ => rfl) (fun _ => rfl)
  · exact (c5_retry_invocation_counts { max_attempts := 2 } retryNoneModel
      (fun _ => .err ()) (fun _ => ()) 2).2 () (by norm_num) rfl rfl

/-! ### Claim C9: batch_items -/

/-- batch_items on the empty list yields no batches. -/
theorem batch_items_nil {α : Type} (b : Nat) : batch_items ([] : List α) b = [] := by
  rcases Nat.eq_zero_or_pos b with hb | hb
  · subst hb
    simp [batch_items, pyRangeStep]
  · have hz : (b - 1) / b = 0 := Nat.div_eq_of_lt (by omega)
    simp [batch_items, pyRangeStep, hz]

/-- Unfolding of batch_items on a nonempty list: the first b items form the
first batch and the rest is batched recursively. -/
theorem batch_items_cons {α : Type} (items : List α) (b : Nat) (hb : 1 ≤ b)
    (hne : items ≠ []) :
    batch_items items b = items.take b :: batch_items (items.drop b) b := by
  have hn : 1 ≤ items.length := List.length_pos.mpr hne
  have hcount : (items.length + b - 1) / b =
      ((items.drop b).length + b - 1) / b + 1 := by
    rw [List.length_drop]
    rcases Nat.le_total items.length b with h | h
    · have h1 : (items.length + b - 1) / b = 1 :=
        Nat.div_eq_of_lt_le (by omega) (by omega)
      have hz : (items.length - b + b - 1) / b = 0 := Nat.div_eq_of_lt (by omega)
      omega
    · have h1 : items.length + b - 1 = (items.length - b + b - 1) + b := by omega
      rw [h1, Nat.add_div_right _ (by omega)]
  rw [batch_items, pyRangeStep, hcount, List.range_succ_eq_map]
  simp only [List.map_cons, List.map_map]
  congr 1
  · simp
  · rw [batch_items, pyRangeStep, List.map_map]
    apply List.map_congr_left
    intro k _
    simp only [Function.comp]
    have hid : Nat.succ k * b = b + k * b := by
      rw [Nat.succ_mul, Nat.add_comm]
    rw [hid, ← List.drop_drop]

/-- batch_items yields the empty list only on the empty list. -/
theorem batch_items_eq_nil_iff {α : Type} (items : List α) (b : Nat) (hb : 1 ≤ b) :
    batch_items items b = [] ↔ items = [] := by
  constructor
  · intro h
    by_contra hne
    rw [batch_items_cons items b hb hne] at h
    cases h
  · intro h
    subst h
    exact batch_items_nil b

/-- The batching properties, proved by strong induction on the list length. -/
theorem batch_items_props {α : Type} :
    ∀ (n : Nat) (items : List α) (b : Nat), 1 ≤ b → items.length ≤ n →
      (batch_items items b).flatten = items ∧
      (∀ l ∈ (batch_items items b).dropLast, l.length = b) ∧
      (∀ l ∈ (batch_items items b).getLast?, 1 ≤ l.length ∧ l.length ≤ b) := by
  intro n
  induction n with
  | zero =>
    intro items b hb hlen
    have h0 : items = [] := List.length_eq_zero.mp (by omega)
    subst h0
    simp [batch_items_nil]
  | succ n ih =>
    intro items b hb hlen
    by_cases hne : items = []
    · subst hne
      simp [batch_items_nil]
    · rw [batch_items_cons items b hb hne]
      have hpos : 1 ≤ items.length := List.length_pos.mpr hne
      have hdrop : (items.drop b).length ≤ n := by
        rw [List.length_drop]
        omega
      obtain ⟨ihj, ihd, ihl⟩ := ih (items.drop b) b hb hdrop
      by_cases hrest : items.drop b = []
      · have hlen_le : items.length ≤ b := by
          have hd : (items.drop b).length = items.length - b := List.length_drop b items
          rw [hrest] at hd
          simp at hd
          omega
        rw [hrest, batch_items_nil]
        refine ⟨by simp [List.take_of_length_le hlen_le], by simp, ?_⟩
        intro l hl
        simp only [List.getLast?_singleton, Option.mem_def, Option.some.injEq] at hl
        subst hl
        rw [List.length_take]
        omega
      · rcases hbm : batch_items (items.drop b) b with _ | ⟨y, ys⟩
        · exact absurd ((batch_items_eq_nil_iff _ b hb).mp hbm) hrest
        · have hblen : b ≤ items.length := by
            by_contra hlt
            exact hrest (List.drop_eq_nil_of_le (by omega))
          rw [hbm] at ihj ihd ihl
          refine ⟨?_, ?_, ?_⟩
          · simp only [List.flatten_cons] at ihj ⊢
            rw [ihj, List.take_append_drop]
          · intro l hl
            rw [List.dropLast_cons₂] at hl
            rcases List.mem_cons.mp hl with h | h
            · subst h
              rw [List.length_take]
              omega
            · exact ihd l h
          · intro l hl
            rw [List.getLast?_cons_cons] at hl
            exact ihl l hl

/-- Claim C9: for batch size b >= 1, the in-order concatenation of the
batches of batch_items equals the original list, every batch except possibly
the last has exactly b elements, the last batch has between 1 and b
elements, and an empty input yields no batches. -/
theorem c9_batch_items {α : Type} (items : List α) (b : Nat) (hb : 1 ≤ b) :
    (batch_items items b).flatten = items ∧
    (∀ l ∈ (batch_items items b).dropLast, l.length = b) ∧
    (∀ l ∈ (batch_items items b).getLast?, 1 ≤ l.length ∧ l.length ≤ b) ∧
    (items = [] → batch_items items b = []) ∧
    (items ≠ [] → batch_items items b ≠ []) := by
  obtain ⟨h1, h2, h3⟩ := batch_items_props items.length items b hb le_rfl
  refine ⟨h1, h2, h3, ?_, ?_⟩
  · intro h
    subst h
    exact batch_items_nil b
  · intro h
    rw [ne_eq, batch_items_eq_nil_iff items b hb]
    exact h

/-- Witness for c9_batch_items on a concrete five-element list with batch
size 2. -/
theorem c9_batch_items_witness :
    (batch_items [1, 2, 3, 4, 5] 2).flatten = [1, 2, 3, 4, 5] ∧
    batch_items ([] : List Nat) 2 = [] := by
  have h := c9_batch_items [1, 2, 3, 4, 5] 2 (by norm_num)
  have h0 := c9_batch_items ([] : List Nat) 2 (by norm_num)
  exact ⟨h.1, h0.2.2.2.1 rfl⟩

/-! ### Claim C7: sanitize_filename -/

/-- A fold of single-character replacements by underscore equals one map
that replaces any character of the list (an already-produced underscore is
never changed back). -/
theorem foldl_replaceWithUnderscore (cs : List Char) :
    ∀ s : List Char, cs.foldl replaceWithUnderscore s =
      s.map (fun c => if c ∈ cs then '_' else c) := by
  induction cs with
  | nil =>
    intro s
    simp [List.foldl]
  | cons a t ih =>
    intro s
    rw [List.foldl_cons, ih, replaceWithUnderscore, List.map_map]
    apply List.map_congr_left
    intro c _
    by_cases hca : c = a
    · subst hca
      by_cases hu : ('_' : Char) ∈ t <;> simp [Function.comp, hu]
    · by_cases hct : c ∈ t <;> simp [Function.comp, hca, hct]

/-- The two halves of os.path.splitext rejoin to the whole name. -/
theorem pySplitExt_append (p : List Char) :
    (pySplitExt p).1 ++ (pySplitExt p).2 = p := by
  rw [pySplitExt]
  split
  · exact List.take_append_drop _ p
  · simp

/-- Claim C7 as amended: sanitize_filename replaces each of the characters
<>:"|?* with an underscore (it does not strip them), removes control
characters (code points below 32), and if the cleaned name exceeds 255
characters truncates the stem while reattaching the extension; the result
always ends with the split-off extension, and its character count (Python
len, not bytes) is at most 255 whenever that extension is at most 255
characters long. -/
theorem c7_sanitize_filename (s : String)
    (hext : (pySplitExt (sanitizeClean s)).2.length ≤ 255) :
    sanitizeClean s =
      (s.data.map replaceInvalid).filter (fun c => 32 ≤ c.toNat) ∧
    (sanitize_filename s).length ≤ 255 ∧
    ∃ stem, (sanitize_filename s).data =
      stem ++ (pySplitExt (sanitizeClean s)).2 := by
  refine ⟨?_, ?_, ?_⟩
  · rw [sanitizeClean, foldl_replaceWithUnderscore]
    rfl
  · rw [sanitize_filename]
    split
    · next hlong =>
      rw [String.length, pySlice]
      have h255 : (0 : Int) ≤ 255 - ((pySplitExt (sanitizeClean s)).2.length : Int) := by
        omega
      rw [if_pos h255]
      simp only [List.length_append, List.length_take]
      have : (255 - ((pySplitExt (sanitizeClean s)).2.length : Int)).toNat =
          255 - (pySplitExt (sanitizeClean s)).2.length := by omega
      omega
    · next hshort =>
      rw [String.length]
      omega
  · rw [sanitize_filename]
    split
    · exact ⟨pySlice (pySplitExt (sanitizeClean s)).1
        (255 - ((pySplitExt (sanitizeClean s)).2.length : Int)), rfl⟩
    · exact ⟨(pySplitExt (sanitizeClean s)).1,
        ((pySplitExt_append (sanitizeClean s)).symm : _)⟩

/-- Witness for c7_sanitize_filename at "a<b" (no extension, so the
extension-length hypothesis holds trivially). -/
theorem c7_sanitize_filename_witness : (sanitize_filename "a<b").length ≤ 255 :=
  (c7_sanitize_filename "a<b" (by decide)).2.1

/-- Claim C7, counterexample: the claim says the characters <>:"|?* are
stripped, which would turn "a<b" into "ab"; the code replaces them with
underscores, producing "a_b". -/
theorem c7_counterexample :
    sanitize_filename "a<b" = "a_b" ∧ sanitize_filename "a<b" ≠ "ab" := by
  constructor
  · rfl
  · decide

/-! ### Claim C8: TokenBucket -/

/-- Applying any operation preserves capacity and refill rate. -/
theorem applyOp_capacity (b : TokenBucket) (op : BucketOp) :
    (b.applyOp op).capacity = b.capacity ∧
    (b.applyOp op).refill_rate = b.refill_rate := by
  cases op with
  | refillOp t => exact ⟨rfl, rfl⟩
  | consumeOp t n =>
    rw [TokenBucket.applyOp, TokenBucket.consume]
    split <;> exact ⟨rfl, rfl⟩

/-- The token-count invariant over a valid trace: tokens stay within
[0, capacity]. -/
theorem bucket_invariant :
    ∀ (ops : List BucketOp) (b : TokenBucket),
      0 < b.capacity → 0 ≤ b.refill_rate →
      0 ≤ b.tokens → b.tokens ≤ b.capacity → b.traceOK ops →
      0 ≤ (b.applyOps ops).tokens ∧
      (b.applyOps ops).tokens ≤ (b.applyOps ops).capacity ∧
      (b.applyOps ops).capacity = b.capacity := by
  intro ops
  induction ops with
  | nil =>
    intro b hc hr h0 h1 _
    exact ⟨h0, h1, rfl⟩
  | cons op rest ih =>
    intro b hc hr h0 h1 htr
    obtain ⟨⟨htime, hamt⟩, htr'⟩ := htr
    have hcap := applyOp_capacity b op
    have hrefill : ∀ now : ℚ, b.last_refill ≤ now →
        0 ≤ (b.refill now).tokens ∧ (b.refill now).tokens ≤ b.capacity := by
      intro now hnow
      constructor
      · rw [TokenBucket.refill]
        have : (0 : ℚ) ≤ (now - b.last_refill) * b.refill_rate :=
          mul_nonneg (by linarith) hr
        exact le_min (le_of_lt hc) (by linarith)
      · exact min_le_left _ _
    have hstep : 0 ≤ (b.applyOp op).tokens ∧ (b.applyOp op).tokens ≤ b.capacity := by
      cases op with
      | refillOp t => exact hrefill t htime
      | consumeOp t n =>
        obtain ⟨hr0, hr1⟩ := hrefill t htime
        rw [TokenBucket.applyOp, TokenBucket.consume]
        split
        · next hge =>
          refine ⟨by simpa using hge, ?_⟩
          simp only [BucketOp.amount] at hamt
          simpa using le_trans (by linarith : (b.refill t).tokens - n ≤ (b.refill t).tokens) hr1
        · exact ⟨hr0, hr1⟩
    have hrest := ih (b.applyOp op) (hcap.1 ▸ hc) (hcap.2 ▸ hr)
      hstep.1 (hcap.1 ▸ hstep.2) htr'
    rw [TokenBucket.applyOps, List.foldl_cons]
    exact ⟨hrest.1, hrest.2.1, hrest.2.2.trans hcap.1⟩

/-- Claim C8: a bucket built with capacity c > 0 and refill rate r > 0 keeps
its token count within [0, c] under any valid sequence of consume and refill
calls; refill never raises the count above the capacity; and consume either
subtracts the requested amount from the refilled count (returning true) or
leaves the refilled count unchanged and returns false. -/
theorem c8_token_bucket (c r t0 : ℚ) (hc : 0 < c) (hr : 0 < r)
    (ops : List BucketOp) (hops : (TokenBucket.init c r t0).traceOK ops) :
    (0 ≤ ((TokenBucket.init c r t0).applyOps ops).tokens ∧
      ((TokenBucket.init c r t0).applyOps ops).tokens ≤ c) ∧
    (∀ (b : TokenBucket) (now : ℚ), (b.refill now).tokens ≤ b.capacity) ∧
    (∀ (b : TokenBucket) (now n : ℚ),
      ((b.consume now n).1 = true →
        (b.consume now n).2.tokens = (b.refill now).tokens - n) ∧
      ((b.consume now n).1 = false →
        (b.consume now n).2.tokens = (b.refill now).tokens ∧
          (b.refill now).tokens < n)) := by
  refine ⟨?_, ?_, ?_⟩
  · have h := bucket_invariant ops (TokenBucket.init c r t0) hc (le_of_lt hr)
      (le_of_lt hc) le_rfl hops
    refine ⟨h.1, ?_⟩
    have h2 := h.2.1
    rw [h.2.2] at h2
    exact h2
  · intro b now
    exact min_le_left _ _
  · intro b now n
    constructor
    · intro htrue
      rw [TokenBucket.consume] at htrue ⊢
      split at htrue
      · rw [if_pos (by assumption)]
      · cases htrue
    · intro hfalse
      rw [TokenBucket.consume] at hfalse ⊢
      split at hfalse
      · cases hfalse
      · next hlt =>
        rw [if_neg hlt]
        exact ⟨rfl, by linarith [lt_of_not_le hlt]⟩

/-- Witness for c8_token_bucket: a bucket of capacity 2, rate 1, with one
consume call at a later instant. -/
theorem c8_token_bucket_witness :
    0 ≤ ((TokenBucket.init 2 1 0).applyOps [.consumeOp 1 1]).tokens ∧
    ((TokenBucket.init 2 1 0).applyOps [.consumeOp 1 1]).tokens ≤ 2 :=
  (c8_token_bucket 2 1 0 (by norm_num) (by norm_num) [.consumeOp 1 1]
    ⟨⟨by norm_num [TokenBucket.init, BucketOp.now],
      by norm_num [BucketOp.amount]⟩, trivial⟩).1

/-! ### Claim C6: filter_json_by_filename -/

/-- When no entry's match decision raises, the filter loop collects exactly
the entries that match, in order. -/
theorem collectMatches_eq (strict : Bool) (target : String) :
    ∀ files : List JVal, (∀ e ∈ files, entryMatch strict target e ≠ none) →
      collectMatches strict target files =
        some (files.filter (entryMatches strict target)) := by
  intro files
  induction files with
  | nil => intro _; rfl
  | cons e rest ih =>
    intro h
    have he := h e (List.mem_cons_self e rest)
    have hrest := ih (fun x hx => h x (List.mem_cons_of_mem e hx))
    rcases hm : entryMatch strict target e with _ | m
    · exact absurd hm he
    · cases m with
      | true => simp [collectMatches, hm, hrest, List.filter_cons, entryMatches]
      | false => simp [collectMatches, hm, hrest, List.filter_cons, entryMatches]

/-- Claim C6 as amended: when the input's files array is well-typed for the
chosen mode (no object entry carries a non-string file_name in substring
mode, where the code would raise and return failure) and at least one entry
matches, the filter preserves the input's top-level shape, its output files
are exactly the matching entries, and the _filter_info block records
original_count = input array length and filtered_count = output array
length. -/
theorem c6_filter_json (data : JVal) (target : String) (strict : Bool)
    (files : List JVal) (hf : getFilesArray data = some files)
    (hok : ∀ e ∈ files, entryMatch strict target e ≠ none)
    (hne : (files.filter (entryMatches strict target)).isEmpty = false) :
    (∀ l, data = .jarr l → filter_json_by_filename data target strict =
      some (.jarr (files.filter (entryMatches strict target)))) ∧
    (∀ dfields, data = .jobj dfields → filter_json_by_filename data target strict =
      some (.jobj
        [("files", .jarr (files.filter (entryMatches strict target))),
         ("_filter_info", .jobj
           [("target_filename", .jstr target),
            ("original_count", .jnum files.length),
            ("filtered_count", .jnum (files.filter (entryMatches strict target)).length),
            ("match_type", .jstr (if strict then "exact" else "partial"))])])) := by
  have hcol := collectMatches_eq strict target files hok
  constructor
  · intro l hl
    subst hl
    simp only [filter_json_by_filename, hf, hcol, hne, if_false, Bool.false_eq_true]
  · intro dfields hd
    subst hd
    simp only [filter_json_by_filename, hf, hcol, hne, if_false, Bool.false_eq_true]

/-- Witness for c6_filter_json: a one-entry object manifest filtered in
strict mode for its exact file_name. -/
theorem c6_filter_json_witness :
    filter_json_by_filename dataC6w "a" true =
      some (.jobj
        [("files", .jarr [.jobj [("file_name", .jstr "a")]]),
         ("_filter_info", .jobj
           [("target_filename", .jstr "a"),
            ("original_count", .jnum 1),
            ("filtered_count", .jnum 1),
            ("match_type", .jstr "exact")])]) := by
  have h := (c6_filter_json dataC6w "a" true [.jobj [("file_name", .jstr "a")]]
    rfl (by intro e he; fin_cases he; simp [entryMatch, lookupKey]) rfl).2
    [("files", .jarr [.jobj [("file_name", .jstr "a")]])] rfl
  exact h.trans (by rfl)

/-- Claim C6, counterexample: dataC6's files array contains an entry whose
file_name exactly matches the target "a", yet in the default substring mode
the function fails (returns no output) because the first entry's file_name
is the number 1 and .lower() on it raises AttributeError, which the code
catches by abandoning the whole operation. -/
theorem c6_counterexample :
    filter_json_by_filename dataC6 "a" false = none ∧
    entryMatch false "a" (JVal.jobj [("file_name", JVal.jstr "a")]) = some true := by
  exact ⟨rfl, rfl⟩

/-! ### Claim C3: split_json_by_filename -/

/-- Writing a fresh name into a directory listing appends it. -/
theorem setFirst_fresh {α : Type} :
    ∀ (dir : List (String × α)) (k : String) (v : α),
      (∀ p ∈ dir, p.1 ≠ k) → setFirst dir k v = dir ++ [(k, v)] := by
  intro dir
  induction dir with
  | nil => intro k v _; rfl
  | cons p rest ih =>
    intro k v h
    rw [setFirst]
    have hp : p.1 ≠ k := h p (List.mem_cons_self p rest)
    rw [if_neg (by simpa using hp), ih k v (fun q hq => h q (List.mem_cons_of_mem p hq))]
    rfl

/-- The split loop, when every entry is an object with a string file_name
and the derived output names are fresh and pairwise distinct, appends one
wrapped entry per input entry in order. -/
theorem splitGo_eq (pfx sfx : String) :
    ∀ (files : List JVal) (dir : List (String × JVal)),
      (∀ e ∈ files, ∃ fl nm, e = JVal.jobj fl ∧
        lookupKey fl "file_name" = some (.jstr nm)) →
      (∀ e ∈ files, ∀ p ∈ dir, p.1 ≠ entryOutName pfx sfx e) →
      files.Pairwise (fun a b => entryOutName pfx sfx a ≠ entryOutName pfx sfx b) →
      splitGo pfx sfx dir files =
        some (dir ++ files.map
          (fun e => (entryOutName pfx sfx e, JVal.jobj [("files", JVal.jarr [e])]))) := by
  intro files
  induction files with
  | nil => intro dir _ _ _; simp [splitGo]
  | cons e rest ih =>
    intro dir h1 hfresh hdist
    obtain ⟨fl, nm, he, hnm⟩ := h1 e (List.mem_cons_self e rest)
    have hwrite : setFirst dir (entryOutName pfx sfx e)
        (JVal.jobj [("files", JVal.jarr [e])]) =
        dir ++ [(entryOutName pfx sfx e, JVal.jobj [("files", JVal.jarr [e])])] :=
      setFirst_fresh dir _ _ (fun p hp => hfresh e (List.mem_cons_self e rest) p hp)
    have hrest := ih (dir ++ [(entryOutName pfx sfx e, JVal.jobj [("files", JVal.jarr [e])])])
      (fun x hx => h1 x (List.mem_cons_of_mem e hx))
      (by
        intro x hx p hp
        rcases List.mem_append.mp hp with hp1 | hp2
        · exact hfresh x (List.mem_cons_of_mem e hx) p hp1
        · have hpe : p = (entryOutName pfx sfx e, JVal.jobj [("files", JVal.jarr [e])]) := by
            simpa using hp2
          subst hpe
          exact (List.rel_of_pairwise_cons hdist hx).symm ∘ Eq.symm)
      (List.Pairwise.of_cons hdist)
    subst he
    rw [splitGo, hnm, hwrite, hrest]
    simp

/-- Claim C3 as amended: on a JSON object whose files array holds N entries,
each an object carrying a string file_name, and whose derived output
filenames are pairwise distinct, split_json_by_filename creates exactly N
output files, in order one per entry, each containing {"files": [entry]} —
so the entries written across the outputs are exactly the original files
array. (Without the added hypotheses the claim fails: an entry without a
file_name is skipped, and colliding sanitized names overwrite earlier
output files.) -/
theorem c3_split_json (data : JVal) (dfields : List (String × JVal))
    (files : List JVal) (pfx sfx : String)
    (hd : data = .jobj dfields)
    (hf : lookupKey dfields "files" = some (.jarr files))
    (h1 : ∀ e ∈ files, ∃ fl nm, e = JVal.jobj fl ∧
      lookupKey fl "file_name" = some (.jstr nm))
    (hdist : files.Pairwise
      (fun a b => entryOutName pfx sfx a ≠ entryOutName pfx sfx b)) :
    split_json_by_filename data pfx sfx =
      some (files.map
        (fun e => (entryOutName pfx sfx e, JVal.jobj [("files", JVal.jarr [e])]))) ∧
    (files.map
      (fun e => (entryOutName pfx sfx e, JVal.jobj [("files", JVal.jarr [e])]))).length
      = files.length := by
  subst hd
  constructor
  · simp only [split_json_by_filename, hf]
    have h := splitGo_eq pfx sfx files [] h1 (by intro e _ p hp; cases hp) hdist
    rw [h]
    rfl
  · exact List.length_map _ _

/-- Witness for c3_split_json: a two-entry manifest with distinct file_names
"a" and "b" splits into the two files a.json and b.json. -/
theorem c3_split_json_witness :
    split_json_by_filename dataC3w "" "" =
      some [("a.json", JVal.jobj [("files", JVal.jarr [.jobj [("file_name", JVal.jstr "a")]])]),
            ("b.json", JVal.jobj [("files", JVal.jarr [.jobj [("file_name", JVal.jstr "b")]])])] := by
  have h := (c3_split_json dataC3w
    [("files", .jarr [.jobj [("file_name", .jstr "a")], .jobj [("file_name", .jstr "b")]])]
    [.jobj [("file_name", .jstr "a")], .jobj [("file_name", .jstr "b")]] "" ""
    rfl rfl
    (by
      intro e he
      fin_cases he
      · exact ⟨[("file_name", .jstr "a")], "a", rfl, rfl⟩
      · exact ⟨[("file_name", .jstr "b")], "b", rfl, rfl⟩)
    (by
      constructor
      · intro b hb
        fin_cases hb
        decide
      · simp)).1
  exact h.trans (by rfl)

/-- Claim C3, counterexample: a files array with two distinct entries that
share the file_name "x" produces one output file (the second write
overwrites the first), not two, and the surviving content holds only the
second entry. -/
theorem c3_counterexample :
    (split_json_by_filename dataC3 "" "").map List.length = some 1 ∧
    (getFilesArray dataC3).map List.length = some 2 ∧ (1 : Nat) ≠ 2 := by
  exact ⟨rfl, rfl, by decide⟩

/-! ### Claim C10: merge_metadata -/

/-- The merge loop fails when the result address does not hold a
dictionary (unreachable from merge_metadata, which just allocated it). -/
theorem mergeLoop_cons_none (fuel : Nat) (h : Heap) (r : Nat) (k : String)
    (v : PyVal) (rest : PyDict) (hgr : heapGet h r = none) :
    mergeLoop (fuel + 1) h r ((k, v) :: rest) = none := by
  rw [show mergeLoop (fuel + 1) h r ((k, v) :: rest) =
      match heapGet h r with
      | none => none
      | some rD =>
        match pdGet rD k, v with
        | some (.pdict curA), .pdict vA =>
          (match merge_metadata fuel h curA vA with
           | none => none
           | some (m, h2) =>
             match heapGet h2 r with
             | none => none
             | some rD2 =>
               mergeLoop fuel (heapSet h2 r (pdSet rD2 k (.pdict m))) r rest)
        | _, _ => mergeLoop fuel (heapSet h r (pdSet rD k v)) r rest from rfl, hgr]

/-- Unfolding of the merge loop at a nonempty entry list once the result
dictionary has been read. -/
theorem mergeLoop_cons_some (fuel : Nat) (h : Heap) (r : Nat) (k : String)
    (v : PyVal) (rest : PyDict) (rD : PyDict) (hgr : heapGet h r = some rD) :
    mergeLoop (fuel + 1) h r ((k, v) :: rest) =
      match pdGet rD k, v with
      | some (.pdict curA), .pdict vA =>
        (match merge_metadata fuel h curA vA with
         | none => none
         | some (m, h2) =>
           match heapGet h2 r with
           | none => none
           | some rD2 =>
             mergeLoop fuel (heapSet h2 r (pdSet rD2 k (.pdict m))) r rest)
      | _, _ => mergeLoop fuel (heapSet h r (pdSet rD k v)) r rest := by
  rw [show mergeLoop (fuel + 1) h r ((k, v) :: rest) =
      match heapGet h r with
      | none => none
      | some rD =>
        match pdGet rD k, v with
        | some (.pdict curA), .pdict vA =>
          (match merge_metadata fuel h curA vA with
           | none => none
           | some (m, h2) =>
             match heapGet h2 r with
             | none => none
             | some rD2 =>
               mergeLoop fuel (heapSet h2 r (pdSet rD2 k (.pdict m))) r rest)
        | _, _ => mergeLoop fuel (heapSet h r (pdSet rD k v)) r rest from rfl, hgr]

/-- Frame property of merge_metadata and its update loop: merging only
allocates fresh addresses and mutates the freshly allocated result
dictionary (and those of recursive merges); every pre-existing address keeps
its dictionary, the heap only grows, and the result address is the first
fresh one. -/
theorem merge_frame :
    ∀ fuel : Nat,
      (∀ (h : Heap) (a b r : Nat) (h2 : Heap),
        merge_metadata fuel h a b = some (r, h2) →
        (∀ i, i < h.length → h2.get? i = h.get? i) ∧
          h.length ≤ h2.length ∧ r = h.length) ∧
      (∀ (h : Heap) (rA : Nat) (entries : PyDict) (h2 : Heap),
        mergeLoop fuel h rA entries = some h2 →
        (∀ i, i < h.length → i ≠ rA → h2.get? i = h.get? i) ∧
          h.length ≤ h2.length) := by
  intro fuel
  induction fuel with
  | zero =>
    constructor
    · intro h a b r h2 hm
      cases hm
    · intro h rA entries h2 hm
      cases hm
  | succ fuel ih =>
    constructor
    · intro h a b r h2 hm
      rw [merge_metadata] at hm
      rcases hga : heapGet h a with _ | bD
      · rw [hga] at hm
        cases hm
      · rcases hgb : heapGet h b with _ | uD
        · rw [hga, hgb] at hm
          cases hm
        · rw [hga, hgb] at hm
          simp only [Option.map_eq_some'] at hm
          obtain ⟨h1, hloop, hpair⟩ := hm
          obtain ⟨hr, hh2⟩ : r = h.length ∧ h2 = h1 := by
            constructor
            · exact (congrArg Prod.fst hpair).symm
            · exact (congrArg Prod.snd hpair).symm
          subst hh2
          obtain ⟨hframe, hlen⟩ := ih.2 (h ++ [bD]) h.length uD h2 hloop
          refine ⟨?_, ?_, hr⟩
          · intro i hi
            rw [hframe i (by simp; omega) (by omega), List.get?_append hi]
          · simp at hlen
            omega
    · intro h rA entries h2 hm
      cases entries with
      | nil =>
        replace hm : some h = some h2 := hm
        cases hm
        exact ⟨fun i _ _ => rfl, le_rfl⟩
      | cons kv rest =>
        obtain ⟨k, v⟩ := kv
        rcases hgr : heapGet h rA with _ | rD
        · rw [mergeLoop_cons_none fuel h rA k v rest hgr] at hm
          cases hm
        · rw [mergeLoop_cons_some fuel h rA k v rest rD hgr] at hm
          have hcommon : ∀ X : PyDict,
              mergeLoop fuel (heapSet h rA X) rA rest = some h2 →
              (∀ i, i < h.length → i ≠ rA → h2.get? i = h.get? i) ∧
                h.length ≤ h2.length := by
            intro X hmX
            obtain ⟨hframe, hlen⟩ := ih.2 _ _ _ _ hmX
            refine ⟨?_, ?_⟩
            · intro i hi hir
              rw [hframe i (by simpa [heapSet] using hi) hir]
              exact List.get?_set_ne _ _ (Ne.symm hir)
            · simpa [heapSet] using hlen
          rcases hpd : pdGet rD k with _ | pv
          · rw [hpd] at hm
            exact hcommon _ hm
          · rcases pv with s | n | curA
            · rw [hpd] at hm
              exact hcommon _ hm
            · rw [hpd] at hm
              exact hcommon _ hm
            · rcases v with s2 | n2 | vA
              · rw [hpd] at hm
                exact hcommon _ hm
              · rw [hpd] at hm
                exact hcommon _ hm
              · rw [hpd] at hm
                replace hm : (match merge_metadata fuel h curA vA with
                  | none => none
                  | some (m, h3) =>
                    match heapGet h3 rA with
                    | none => none
                    | some rD2 =>
                      mergeLoop fuel (heapSet h3 rA (pdSet rD2 k (.pdict m))) rA rest)
                  = some h2 := hm
                rcases hmg : merge_metadata fuel h curA vA with _ | ⟨m, hmid⟩
                · rw [hmg] at hm
                  cases hm
                · rw [hmg] at hm
                  replace hm : (match heapGet hmid rA with
                    | none => none
                    | some rD2 =>
                      mergeLoop fuel (heapSet hmid rA (pdSet rD2 k (.pdict m))) rA rest)
                    = some h2 := hm
                  rcases hgr2 : heapGet hmid rA with _ | rD2
                  · rw [hgr2] at hm
                    cases hm
                  · rw [hgr2] at hm
                    replace hm : mergeLoop fuel
                        (heapSet hmid rA (pdSet rD2 k (.pdict m))) rA rest
                        = some h2 := hm
                    obtain ⟨hf1, hl1, _⟩ := ih.1 _ _ _ _ _ hmg
                    obtain ⟨hf2, hl2⟩ := ih.2 _ _ _ _ hm
                    refine ⟨?_, ?_⟩
                    · intro i hi hir
                      rw [hf2 i (by simp [heapSet]; omega) hir,
                        show (heapSet hmid rA (pdSet rD2 k (PyVal.pdict m))).get? i =
                          hmid.get? i from List.get?_set_ne _ _ (Ne.symm hir)]
                      exact hf1 i hi
                    · have hset : (heapSet hmid rA (pdSet rD2 k (PyVal.pdict m))).length =
                        hmid.length := List.length_set _ _ _
                      omega

/-- Reading a well-formed value back is unaffected by a heap change that
preserves every address the value can reach (all addresses below the
original heap length). -/
theorem readBack_frame :
    ∀ fuel : Nat,
      (∀ (h h2 : Heap) (v : PyVal),
        (∀ i, i < h.length → h2.get? i = h.get? i) → heapWF h →
        valWF h.length v = true → readVal fuel h2 v = readVal fuel h v) ∧
      (∀ (h h2 : Heap) (d : PyDict),
        (∀ i, i < h.length → h2.get? i = h.get? i) → heapWF h →
        (∀ kv ∈ d, valWF h.length kv.2 = true) →
        readEntries fuel h2 d = readEntries fuel h d) := by
  intro fuel
  induction fuel with
  | zero => exact ⟨fun _ _ _ _ _ _ => rfl, fun _ _ _ _ _ _ => rfl⟩
  | succ fuel ih =>
    constructor
    · intro h h2 v hframe hwf hv
      cases v with
      | pstr s => rfl
      | pint n => rfl
      | pdict a =>
        have ha : a < h.length := by simpa [valWF] using hv
        rw [show readVal (fuel + 1) h2 (.pdict a) =
            match heapGet h2 a with
            | none => none
            | some d => (readEntries fuel h2 d).map PyTree.tdict from rfl,
          show readVal (fuel + 1) h (.pdict a) =
            match heapGet h a with
            | none => none
            | some d => (readEntries fuel h d).map PyTree.tdict from rfl,
          show heapGet h2 a = heapGet h a from hframe a ha]
        rcases hga : heapGet h a with _ | d
        · rfl
        · have hd : d ∈ h := List.get?_mem hga
          show Option.map PyTree.tdict (readEntries fuel h2 d) =
            Option.map PyTree.tdict (readEntries fuel h d)
          rw [ih.2 h h2 d hframe hwf (fun kv hkv => hwf d hd kv hkv)]
    · intro h h2 d hframe hwf hd
      cases d with
      | nil => rfl
      | cons kv rest =>
        obtain ⟨k, v⟩ := kv
        rw [show readEntries (fuel + 1) h2 ((k, v) :: rest) =
            (match readVal fuel h2 v, readEntries fuel h2 rest with
             | some t, some ts => some ((k, t) :: ts)
             | _, _ => none) from rfl,
          show readEntries (fuel + 1) h ((k, v) :: rest) =
            (match readVal fuel h v, readEntries fuel h rest with
             | some t, some ts => some ((k, t) :: ts)
             | _, _ => none) from rfl,
          ih.1 h h2 v hframe hwf (hd (k, v) (List.mem_cons_self _ _)),
          ih.2 h h2 rest hframe hwf (fun kv hkv => hd kv (List.mem_cons_of_mem _ hkv))]

/-- Claim C10: merge_metadata returns a fresh dictionary (its address is new
and distinct from both inputs) and leaves both inputs unmodified: reading
base and updates back from the result heap gives, at every depth, exactly
what they held before the call. -/
theorem c10_merge_metadata (fuel : Nat) (h : Heap) (a b r : Nat) (h2 : Heap)
    (hwf : heapWF h) (hm : merge_metadata fuel h a b = some (r, h2)) :
    (∀ n, readVal n h2 (.pdict a) = readVal n h (.pdict a)) ∧
    (∀ n, readVal n h2 (.pdict b) = readVal n h (.pdict b)) ∧
    h.length ≤ r ∧ r ≠ a ∧ r ≠ b := by
  have hfuel : ∃ f, fuel = f + 1 := by
    cases fuel with
    | zero => cases hm
    | succ f => exact ⟨f, rfl⟩
  obtain ⟨f, hf⟩ := hfuel
  subst hf
  have hab : a < h.length ∧ b < h.length := by
    rw [merge_metadata] at hm
    rcases hga : heapGet h a with _ | bD
    · rw [hga] at hm
      cases hm
    · rcases hgb : heapGet h b with _ | uD
      · rw [hga, hgb] at hm
        cases hm
      · have ha := List.get?_eq_some.mp hga
        have hb := List.get?_eq_some.mp hgb
        exact ⟨ha.1, hb.1⟩
  obtain ⟨hframe, hlen, hr⟩ := (merge_frame (f + 1)).1 h a b r h2 hm
  refine ⟨?_, ?_, by omega, by omega, by omega⟩
  · intro n
    exact (readBack_frame n).1 h h2 (.pdict a) hframe hwf (by simp [valWF]; omega)
  · intro n
    exact (readBack_frame n).1 h h2 (.pdict b) hframe hwf (by simp [valWF]; omega)

/-- Witness for c10_merge_metadata on the concrete heap heapC10: merging
addresses 0 and 1 leaves address 0 reading back unchanged. -/
theorem c10_merge_metadata_witness :
    readVal 3 heapC10' (.pdict 0) = readVal 3 heapC10 (.pdict 0) :=
  (c10_merge_metadata 5 heapC10 0 1 2 heapC10' (by simp [heapWF, heapC10, valWF]) rfl).1 3

/-! ### Claim C2: progress conservation -/

/-- updateFirst keeps the key sequence unchanged. -/
theorem updateFirst_keys (l : List (String × FileStat)) (k : String)
    (f : FileStat → FileStat) :
    (updateFirst l k f).map Prod.fst = l.map Prod.fst := by
  induction l with
  | nil => rfl
  | cons p rest ih =>
    rw [updateFirst]
    by_cases hpk : p.1 == k
    · rw [if_pos hpk]
      simp
    · rw [if_neg hpk]
      simp [ih]

/-- updateFirst on an absent key changes nothing. -/
theorem updateFirst_absent (l : List (String × FileStat)) (k : String)
    (f : FileStat → FileStat) (h : statsGet l k = none) :
    updateFirst l k f = l := by
  induction l with
  | nil => rfl
  | cons p rest ih =>
    rw [updateFirst]
    by_cases hpk : (p.1 == k) = true
    · exfalso
      simp only [statsGet, List.find?_cons, hpk] at h
      cases h
    · rw [Bool.not_eq_true] at hpk
      simp only [statsGet, List.find?_cons, hpk] at h
      rw [if_neg (by simp [hpk]), ih h]

/-- Two updates agreeing on the first matching value give the same
updateFirst result. -/
theorem updateFirst_congr_of_lookup (l : List (String × FileStat)) (k : String)
    (f g : FileStat → FileStat) (fs : FileStat)
    (h : statsGet l k = some fs) (hfg : f fs = g fs) :
    updateFirst l k f = updateFirst l k g := by
  induction l with
  | nil => rfl
  | cons p rest ih =>
    by_cases hpk : (p.1 == k) = true
    · simp only [statsGet, List.find?_cons, hpk, Option.map_some'] at h
      have hp2 : p.2 = fs := by
        simpa using h
      rw [updateFirst, updateFirst, if_pos hpk, if_pos hpk, hp2, hfg]
    · rw [Bool.not_eq_true] at hpk
      simp only [statsGet, List.find?_cons, hpk] at h
      rw [updateFirst, updateFirst, if_neg (by simp [hpk]), if_neg (by simp [hpk]),
        ih h]

/-- The transferred-bytes sum after updateFirst: the first matching record's
contribution is replaced. -/
theorem sumTransferred_updateFirst (l : List (String × FileStat)) (k : String)
    (f : FileStat → FileStat) :
    sumTransferred (updateFirst l k f) = sumTransferred l +
      (match statsGet l k with
       | some fs => (f fs).transferred_bytes - fs.transferred_bytes
       | none => 0) := by
  induction l with
  | nil => simp [updateFirst, statsGet, sumTransferred]
  | cons p rest ih =>
    by_cases hpk : (p.1 == k) = true
    · rw [updateFirst, if_pos hpk]
      simp only [statsGet, List.find?_cons, hpk, Option.map_some', sumTransferred,
        List.map_cons, List.sum_cons]
      show (f p.2).transferred_bytes + (rest.map (fun q => q.2.transferred_bytes)).sum =
        p.2.transferred_bytes + (rest.map (fun q => q.2.transferred_bytes)).sum +
          ((f p.2).transferred_bytes - p.2.transferred_bytes)
      omega
    · rw [Bool.not_eq_true] at hpk
      rw [updateFirst, if_neg (by simp [hpk])]
      simp only [statsGet, List.find?_cons, hpk, sumTransferred, List.map_cons,
        List.sum_cons]
      rw [statsGet] at ih
      simp only [sumTransferred] at ih
      omega

/-- statsGet succeeds exactly when the key occurs. -/
theorem statsGet_isSome (l : List (String × FileStat)) (k : String) :
    (statsGet l k).isSome = (l.map Prod.fst).contains k := by
  induction l with
  | nil => rfl
  | cons p rest ih =>
    by_cases hpk : (p.1 == k) = true
    · have hk : (k == p.1) = true := by
        simp only [beq_iff_eq] at hpk ⊢
        exact hpk.symm
      simp [statsGet, List.find?_cons, hpk, List.contains_cons, hk]
    · rw [Bool.not_eq_true] at hpk
      have hk : (k == p.1) = false := by
        simp only [beq_eq_false_iff_ne] at hpk ⊢
        exact fun h => hpk h.symm
      rw [statsGet] at ih
      simp [statsGet, List.find?_cons, hpk, List.contains_cons, hk, ih]

/-- sumTransferred_updateFirst specialized to a present key. -/
theorem sumTransferred_updateFirst_some (l : List (String × FileStat))
    (k : String) (f : FileStat → FileStat) (fs : FileStat)
    (h : statsGet l k = some fs) :
    sumTransferred (updateFirst l k f) =
      sumTransferred l + ((f fs).transferred_bytes - fs.transferred_bytes) := by
  rw [sumTransferred_updateFirst, h]

/-- processUpdate keeps the key sequence of the per-file map unchanged. -/
theorem processUpdate_keys (s : ProgressStats) (u : Update) :
    (processUpdate s u).file_stats.map Prod.fst = s.file_stats.map Prod.fst := by
  cases u with
  | progress uuid tr total =>
    by_cases hu : uuid = ""
    · simp [processUpdate, hu]
    · rcases hsg : statsGet s.file_stats uuid with _ | fs
      · simp [processUpdate, hu, hsg]
      · simp [processUpdate, hu, hsg, updateFirst_keys]
  | started uuid ts =>
    by_cases hu : uuid = ""
    · simp [processUpdate, hu]
    · rcases hsg : statsGet s.file_stats uuid with _ | fs
      · simp [processUpdate, hu, hsg]
      · simp [processUpdate, hu, hsg, updateFirst_keys]
  | completed uuid success err ts =>
    by_cases hu : uuid = ""
    · simp [processUpdate, hu]
    · rcases hsg : statsGet s.file_stats uuid with _ | fs
      · simp [processUpdate, hu, hsg]
      · cases success
        · simp [processUpdate, hu, hsg, updateFirst_keys]
        · simp [processUpdate, hu, hsg, updateFirst_keys]

/-- One processed update conserves the difference between the aggregate
transferred count and the sum of the per-file transferred counts. -/
theorem processUpdate_conserves (s : ProgressStats) (u : Update) :
    (processUpdate s u).transferred_bytes -
        sumTransferred (processUpdate s u).file_stats =
      s.transferred_bytes - sumTransferred s.file_stats := by
  cases u with
  | progress uuid tr total =>
    by_cases hu : uuid = ""
    · simp [processUpdate, hu]
    · rcases hsg : statsGet s.file_stats uuid with _ | fs
      · simp [processUpdate, hu, hsg]
      · rcases total with _ | t
        · simp only [processUpdate, hu, if_true, ne_eq, not_false_eq_true, hsg]
          rw [sumTransferred_updateFirst_some _ _ _ _ hsg]
          simp only []
          omega
        · by_cases ht : t = 0
          · simp only [processUpdate, hu, if_true, ne_eq, not_false_eq_true, hsg, ht,
              if_neg (by omega : ¬ (0 : Int) ≠ 0)]
            rw [sumTransferred_updateFirst_some _ _ _ _ hsg]
            simp only [ht, ne_eq, not_true_eq_false, if_false]
            omega
          · simp only [processUpdate, hu, if_true, ne_eq, not_false_eq_true, hsg]
            rw [sumTransferred_updateFirst_some _ _ _ _ hsg]
            simp only [ht, ne_eq, not_false_eq_true, if_true]
            omega
  | started uuid ts =>
    by_cases hu : uuid = ""
    · simp [processUpdate, hu]
    · rcases hsg : statsGet s.file_stats uuid with _ | fs
      · simp [processUpdate, hu, hsg]
      · simp only [processUpdate, hu, if_true, ne_eq, not_false_eq_true, hsg]
        rw [sumTransferred_updateFirst_some _ _ _ _ hsg]
        simp only []
        omega
  | completed uuid success err ts =>
    by_cases hu : uuid = ""
    · simp [processUpdate, hu]
    · rcases hsg : statsGet s.file_stats uuid with _ | fs
      · simp [processUpdate, hu, hsg]
      · cases success
        · simp only [processUpdate, hu, if_true, ne_eq, not_false_eq_true, hsg,
            Bool.false_eq_true, if_false]
          rw [sumTransferred_updateFirst_some _ _ _ _ hsg]
          simp only []
          omega
        · simp only [processUpdate, hu, if_true, ne_eq, not_false_eq_true, hsg,
            if_true]
          rw [sumTransferred_updateFirst_some _ _ _ _ hsg]
          by_cases hlt : fs.transferred_bytes < fs.size
          · simp only [hlt, if_true]
            omega
          · simp only [hlt, if_false]
            omega

/-- A key that statsGet cannot find heads no entry of the map. -/
theorem statsGet_none_not_mem (l : List (String × FileStat)) (k : String)
    (h : statsGet l k = none) : ∀ fs : FileStat, (k, fs) ∉ l := by
  intro fs hmem
  rcases hf : l.find? (fun p => p.1 == k) with _ | p
  · have := List.find?_eq_none.mp hf (k, fs) hmem
    simp at this
  · rw [statsGet, hf] at h
    cases h

/-- The entry statsGet finds is in the map under its key. -/
theorem statsGet_mem (l : List (String × FileStat)) (k : String) (fs : FileStat)
    (h : statsGet l k = some fs) : (k, fs) ∈ l := by
  rcases hf : l.find? (fun p => p.1 == k) with _ | p
  · rw [statsGet, hf] at h
    cases h
  · rw [statsGet, hf, Option.map_some'] at h
    have hmem := List.mem_of_find?_eq_some hf
    have hpred := List.find?_some hf
    simp only [beq_iff_eq] at hpred
    have hp : p = (k, fs) := by
      cases p
      simp only at hpred
      simp only [Option.some.injEq] at h
      simp [hpred, h]
    rw [hp] at hmem
    exact hmem

/-- One processed update increments completed_files exactly when it is a
successful completion for a truthy, tracked uuid. -/
theorem processUpdate_completed_count (s : ProgressStats) (u : Update) :
    (processUpdate s u).completed_files = s.completed_files +
      (if isCountedCompletion (s.file_stats.map Prod.fst) u then 1 else 0) := by
  cases u with
  | progress uuid tr total =>
    by_cases hu : uuid = ""
    · simp [processUpdate, hu, isCountedCompletion]
    · rcases hsg : statsGet s.file_stats uuid with _ | fs
      · simp [processUpdate, hu, hsg, isCountedCompletion]
      · simp [processUpdate, hu, hsg, isCountedCompletion]
  | started uuid ts =>
    by_cases hu : uuid = ""
    · simp [processUpdate, hu, isCountedCompletion]
    · rcases hsg : statsGet s.file_stats uuid with _ | fs
      · simp [processUpdate, hu, hsg, isCountedCompletion]
      · simp [processUpdate, hu, hsg, isCountedCompletion]
  | completed uuid success err ts =>
    by_cases hu : uuid = ""
    · cases success with
      | false => simp [processUpdate, hu, isCountedCompletion]
      | true => simp [processUpdate, hu, isCountedCompletion]
    · rcases hsg : statsGet s.file_stats uuid with _ | fs
      · cases success with
        | false => simp [processUpdate, hu, hsg, isCountedCompletion]
        | true =>
          simp [processUpdate, hu, hsg, isCountedCompletion]
          exact statsGet_none_not_mem s.file_stats uuid hsg
      · have hmm : uuid ∈ s.file_stats.map Prod.fst :=
          List.mem_map.mpr ⟨(uuid, fs), statsGet_mem s.file_stats uuid fs hsg, rfl⟩
        cases success with
        | false => simp [processUpdate, hu, hsg, isCountedCompletion]
        | true => simp [processUpdate, hu, hsg, isCountedCompletion, hmm]

/-- Over a whole update sequence the aggregate/per-file transferred
difference is conserved. -/
theorem runUpdates_conserves (us : List Update) :
    ∀ s : ProgressStats,
      (runUpdates s us).transferred_bytes -
          sumTransferred (runUpdates s us).file_stats =
        s.transferred_bytes - sumTransferred s.file_stats := by
  induction us with
  | nil => intro s; rfl
  | cons u us ih =>
    intro s
    rw [runUpdates, List.foldl_cons]
    have h1 := ih (processUpdate s u)
    rw [runUpdates] at h1
    rw [h1, processUpdate_conserves]

/-- Over a whole update sequence the key sequence is unchanged. -/
theorem runUpdates_keys (us : List Update) :
    ∀ s : ProgressStats,
      (runUpdates s us).file_stats.map Prod.fst = s.file_stats.map Prod.fst := by
  induction us with
  | nil => intro s; rfl
  | cons u us ih =>
    intro s
    rw [runUpdates, List.foldl_cons]
    have h1 := ih (processUpdate s u)
    rw [runUpdates] at h1
    rw [h1, processUpdate_keys]

/-- Over a whole update sequence completed_files grows by the number of
counted successful completions. -/
theorem runUpdates_completed (us : List Update) :
    ∀ s : ProgressStats,
      (runUpdates s us).completed_files = s.completed_files +
        (us.countP (isCountedCompletion (s.file_stats.map Prod.fst)) : Int) := by
  induction us with
  | nil => intro s; simp [runUpdates]
  | cons u us ih =>
    intro s
    rw [runUpdates, List.foldl_cons]
    have h1 := ih (processUpdate s u)
    rw [runUpdates] at h1
    rw [h1, processUpdate_completed_count, processUpdate_keys, List.countP_cons]
    push_cast
    by_cases hic : isCountedCompletion (s.file_stats.map Prod.fst) u
    · simp [hic]
      omega
    · simp [hic]

/-- An update with an empty (falsy) uuid is dropped whole. -/
theorem processUpdate_empty_key (s : ProgressStats) (u : Update)
    (hu : u.keyOf = "") : processUpdate s u = s := by
  cases u with
  | progress uuid tr total =>
    simp only [Update.keyOf] at hu
    simp [processUpdate, hu]
  | started uuid ts =>
    simp only [Update.keyOf] at hu
    simp [processUpdate, hu]
  | completed uuid success err ts =>
    simp only [Update.keyOf] at hu
    simp [processUpdate, hu]

/-- For a truthy uuid, the per-file map after one update is updateFirst
applied with that update's record transformation entryStep. -/
theorem processUpdate_stats (s : ProgressStats) (u : Update)
    (hu : u.keyOf ≠ "") :
    (processUpdate s u).file_stats =
      updateFirst s.file_stats u.keyOf (fun fs => entryStep fs u) := by
  cases u with
  | progress uuid tr total =>
    simp only [Update.keyOf] at hu
    rcases hsg : statsGet s.file_stats uuid with _ | fs
    · simp only [processUpdate, hu, if_true, ne_eq, not_false_eq_true, hsg]
      exact (updateFirst_absent _ _ _ hsg).symm
    · simp only [processUpdate, hu, if_true, ne_eq, not_false_eq_true, hsg]
      exact updateFirst_congr_of_lookup _ _ _ _ fs hsg rfl
  | started uuid ts =>
    simp only [Update.keyOf] at hu
    rcases hsg : statsGet s.file_stats uuid with _ | fs
    · simp only [processUpdate, hu, if_true, ne_eq, not_false_eq_true, hsg]
      exact (updateFirst_absent _ _ _ hsg).symm
    · simp only [processUpdate, hu, if_true, ne_eq, not_false_eq_true, hsg]
      rfl
  | completed uuid success err ts =>
    simp only [Update.keyOf] at hu
    rcases hsg : statsGet s.file_stats uuid with _ | fs
    · cases success with
      | false =>
        simp only [processUpdate, hu, if_true, ne_eq, not_false_eq_true, hsg]
        exact (updateFirst_absent _ _ _ hsg).symm
      | true =>
        simp only [processUpdate, hu, if_true, ne_eq, not_false_eq_true, hsg]
        exact (updateFirst_absent _ _ _ hsg).symm
    · cases success with
      | false =>
        simp only [processUpdate, hu, if_true, ne_eq, not_false_eq_true, hsg,
          Bool.false_eq_true, if_false]
        rfl
      | true =>
        simp only [processUpdate, hu, if_true, ne_eq, not_false_eq_true, hsg,
          if_true]
        rfl

/-- On a map with no duplicate keys, updateFirst is a pointwise map. -/
theorem updateFirst_eq_map (l : List (String × FileStat)) (k : String)
    (f : FileStat → FileStat) (hnd : (l.map Prod.fst).Nodup) :
    updateFirst l k f = l.map (fun p => if p.1 == k then (p.1, f p.2) else p) := by
  induction l with
  | nil => rfl
  | cons p rest ih =>
    simp only [List.map_cons, List.nodup_cons] at hnd
    by_cases hpk : (p.1 == k) = true
    · have hk : p.1 = k := by simpa using hpk
      have hrest : rest.map (fun q => if q.1 == k then (q.1, f q.2) else q) =
          rest.map id := by
        apply List.map_congr_left
        intro q hq
        have : q.1 ≠ k := by
          intro hqe
          apply hnd.1
          rw [hk, ← hqe]
          exact List.mem_map.mpr ⟨q, hq, rfl⟩
        simp [this]
      rw [updateFirst, if_pos hpk, List.map_cons, if_pos hpk, hrest, List.map_id]
    · rw [updateFirst, if_neg hpk, List.map_cons, if_neg hpk, ih hnd.2]

/-- Running a drained queue decomposes per file: when keys are unique and
truthy, each record ends up as the fold of entryStep over the updates
addressed to its key, in queue order. -/
theorem runUpdates_stats_decomp :
    ∀ (us : List Update) (s : ProgressStats),
      (s.file_stats.map Prod.fst).Nodup →
      (∀ k ∈ s.file_stats.map Prod.fst, k ≠ "") →
      (runUpdates s us).file_stats = s.file_stats.map
        (fun p => (p.1, (us.filter (fun u => u.keyOf == p.1)).foldl entryStep p.2)) := by
  intro us
  induction us with
  | nil =>
    intro s _ _
    simp [runUpdates]
  | cons u us ih =>
    intro s hnd hne
    rw [runUpdates, List.foldl_cons]
    have hkeys := processUpdate_keys s u
    have ih2 := ih (processUpdate s u) (by rw [hkeys]; exact hnd)
      (by rw [hkeys]; exact hne)
    rw [runUpdates] at ih2
    rw [ih2]
    by_cases hu : u.keyOf = ""
    · rw [processUpdate_empty_key s u hu]
      apply List.map_congr_left
      intro p hp
      have hp1 : p.1 ≠ "" := hne p.1 (List.mem_map.mpr ⟨p, hp, rfl⟩)
      have hfu : (u.keyOf == p.1) = false := by
        simp [hu]
        exact fun h => hp1 h.symm
      rw [List.filter_cons, hfu]
      simp
    · rw [processUpdate_stats s u hu, updateFirst_eq_map _ _ _ hnd, List.map_map]
      apply List.map_congr_left
      intro p hp
      by_cases hpk : (p.1 == u.keyOf) = true
      · have hk : p.1 = u.keyOf := by simpa using hpk
        have hku : (u.keyOf == p.1) = true := by simp [hk]
        simp [Function.comp, List.filter_cons, hku, hk]
      · have hk2 : p.1 ≠ u.keyOf := by simpa using hpk
        have hku : (u.keyOf == p.1) = false := by
          simp only [beq_eq_false_iff_ne]
          exact fun h => hk2 h.symm
        simp [Function.comp, List.filter_cons, hku, hk2]

/-- initialize_files with pairwise distinct uuids records the files in
order, each pending with zero transferred bytes. -/
theorem initFiles_stats_eq (files : List FileEntry) :
    ∀ acc : List (String × FileStat),
      (files.map FileEntry.uuid).Nodup →
      (∀ f ∈ files, f.uuid ∉ acc.map Prod.fst) →
      files.foldl (fun fs f => setFirst fs f.uuid (initRecord f)) acc =
        acc ++ files.map (fun f => (f.uuid, initRecord f)) := by
  induction files with
  | nil =>
    intro acc _ _
    simp
  | cons f rest ih =>
    intro acc hnd hacc
    simp only [List.map_cons, List.nodup_cons] at hnd
    rw [List.foldl_cons]
    have hfresh : ∀ p ∈ acc, p.1 ≠ f.uuid := by
      intro p hp hpe
      exact hacc f (List.mem_cons_self f rest) (hpe ▸ List.mem_map.mpr ⟨p, hp, rfl⟩)
    rw [setFirst_fresh acc f.uuid (initRecord f) hfresh]
    rw [ih (acc ++ [(f.uuid, initRecord f)]) hnd.2 ?fresh]
    · simp
    case fresh =>
      intro g hg
      simp only [List.map_append, List.mem_append]
      rintro (hin | hin)
      · exact hacc g (List.mem_cons_of_mem f hg) hin
      · simp only [List.map_cons, List.map_nil, List.mem_singleton] at hin
        exact hnd.1 (hin ▸ List.mem_map.mpr ⟨g, hg, rfl⟩)

/-- Folding a per-file protocol (progress reports bounded by the declared
size, then one successful completion) over a record whose size is that
declared size and whose transferred count does not exceed it ends with the
record's transferred count equal to the declared size. -/
theorem entryStep_fold_protocol (key : String) (sz : Int) (err : Option String)
    (ts : Int) :
    ∀ (ps : List Update) (fs : FileStat),
      fs.size = sz → fs.transferred_bytes ≤ sz →
      (∀ p ∈ ps, ∃ v, p = Update.progress key v none ∧ v ≤ sz) →
      (((ps ++ [Update.completed key true err ts]).foldl entryStep fs).transferred_bytes
        = sz) ∧
      (((ps ++ [Update.completed key true err ts]).foldl entryStep fs).status
        = UploadStatus.success) := by
  intro ps
  induction ps with
  | nil =>
    intro fs hsz htb _
    constructor
    · show (if fs.transferred_bytes < fs.size then fs.size
        else fs.transferred_bytes) = sz
      split <;> omega
    · rfl
  | cons p ps ih =>
    intro fs hsz htb hps
    obtain ⟨v, hp, hv⟩ := hps p (List.mem_cons_self p ps)
    subst hp
    rw [List.cons_append, List.foldl_cons]
    exact ih _ (by simp [entryStep, hsz]) (by simp [entryStep]; omega)
      (fun q hq => hps q (List.mem_cons_of_mem _ hq))

/-- countP distributes over a disjunction of pointwise-disjoint predicates. -/
theorem countP_or_disjoint {α : Type} (p q : α → Bool) :
    ∀ l : List α, (∀ a ∈ l, ¬(p a = true ∧ q a = true)) →
      l.countP (fun a => p a || q a) = l.countP p + l.countP q := by
  intro l
  induction l with
  | nil => intro _; rfl
  | cons a rest ih =>
    intro h
    rw [List.countP_cons, List.countP_cons, List.countP_cons,
      ih (fun x hx => h x (List.mem_cons_of_mem a hx))]
    rcases hp : p a with _ | _ <;> rcases hq : q a with _ | _
    · simp [hp, hq]
    · simp [hp, hq]
      omega
    · simp [hp, hq]
      omega
    · exact absurd ⟨hp, hq⟩ (h a (List.mem_cons_self a rest))

/-- The counted-completion predicate in conjunction form. -/
theorem isCountedCompletion_eq (keys : List String) (u : Update) :
    isCountedCompletion keys u =
      (isSuccCompletion u && u.keyOf != "" && keys.contains u.keyOf) := by
  cases u with
  | progress uuid tr total => rfl
  | started uuid ts => rfl
  | completed uuid success err ts =>
    cases success
    · rfl
    · rfl

/-- Splitting counted completions over pairwise distinct keys. -/
theorem countP_contains_split :
    ∀ (keys : List String), keys.Nodup → ∀ us : List Update,
      us.countP (fun u => isSuccCompletion u && keys.contains u.keyOf) =
        (keys.map (fun k =>
          us.countP (fun u => isSuccCompletion u && (u.keyOf == k)))).sum := by
  intro keys
  induction keys with
  | nil =>
    intro _ us
    simp [List.countP_eq_zero]
  | cons k keys ih =>
    intro hnd us
    simp only [List.nodup_cons] at hnd
    have hsplit : us.countP (fun u => isSuccCompletion u && (k :: keys).contains u.keyOf)
        = us.countP (fun u =>
            (isSuccCompletion u && (u.keyOf == k)) ||
            (isSuccCompletion u && keys.contains u.keyOf)) := by
      apply List.countP_congr
      intro u _
      simp only [List.contains_cons]
      constructor
      · intro h
        simp only [Bool.and_eq_true, Bool.or_eq_true] at h ⊢
        tauto
      · intro h
        simp only [Bool.and_eq_true, Bool.or_eq_true] at h ⊢
        tauto
    rw [hsplit, countP_or_disjoint _ _ us ?disj, ih hnd.2 us, List.map_cons,
      List.sum_cons]
    case disj =>
      intro u _
      rintro ⟨h1, h2⟩
      simp only [Bool.and_eq_true, beq_iff_eq] at h1 h2
      have : k ∈ keys := by
        rw [← h1.2]
        simpa [List.contains_iff_exists_mem_beq, beq_iff_eq] using h2.2
      exact hnd.1 this

/-- Under the per-file protocol, exactly one queued update is a successful
completion for each file's uuid. -/
theorem countP_succ_completion_of_protocol (us : List Update) (key : String)
    (ps : List Update) (err : Option String) (ts : Int)
    (hfilter : us.filter (fun u => u.keyOf == key) =
      ps ++ [Update.completed key true err ts])
    (hps : ∀ p ∈ ps, ∃ v, p = Update.progress key v none) :
    us.countP (fun u => isSuccCompletion u && (u.keyOf == key)) = 1 := by
  rw [show (fun u => isSuccCompletion u && (u.keyOf == key)) =
      (fun u => isSuccCompletion u && (fun u => u.keyOf == key) u) from rfl,
    ← List.countP_filter, hfilter, List.countP_append]
  have hzero : ps.countP isSuccCompletion = 0 := by
    rw [List.countP_eq_zero]
    intro p hp
    obtain ⟨v, hv⟩ := hps p hp
    subst hv
    simp [isSuccCompletion]
  rw [hzero]
  simp [isSuccCompletion, List.countP_cons]

/-- Claim C2 as amended: for files with pairwise distinct, non-empty uuids
and non-negative declared sizes totaling T, if the drained queue holds, per
file, progress updates reporting at most that file's declared size followed
by one successful completion (and nothing else addressed to tracked uuids),
the final aggregate has transferred_bytes = T and completed_files = the
number of files, even when a file's partial updates fell short of its size.
(Without distinctness a duplicate uuid overwrites the earlier record and
loses its bytes; an empty uuid fails Python's truthiness guard and is
dropped.) -/
theorem c2_progress_conservation (files : List FileEntry) (us : List Update)
    (hnodup : (files.map FileEntry.uuid).Nodup)
    (hne : ∀ f ∈ files, f.uuid ≠ "")
    (hsz : ∀ f ∈ files, 0 ≤ f.sizeOr0)
    (hproto : ∀ f ∈ files, ∃ ps ts,
      us.filter (fun u => u.keyOf == f.uuid) =
        ps ++ [Update.completed f.uuid true none ts] ∧
      ∀ p ∈ ps, ∃ v, p = Update.progress f.uuid v none ∧ v ≤ f.sizeOr0) :
    (runUpdates (initFiles files {}) us).transferred_bytes =
      (files.map FileEntry.sizeOr0).sum ∧
    (runUpdates (initFiles files {}) us).completed_files = (files.length : Int) := by
  have hstats0 : (initFiles files {}).file_stats =
      files.map (fun f => (f.uuid, initRecord f)) := by
    show files.foldl (fun fs f => setFirst fs f.uuid (initRecord f)) [] =
      files.map (fun f => (f.uuid, initRecord f))
    rw [initFiles_stats_eq files [] hnodup (by intro f _; simp)]
    simp
  have hkeys0 : (initFiles files {}).file_stats.map Prod.fst =
      files.map FileEntry.uuid := by
    rw [hstats0, List.map_map]
    apply List.map_congr_left
    intro f _
    rfl
  have hnd0 : ((initFiles files {}).file_stats.map Prod.fst).Nodup := by
    rw [hkeys0]; exact hnodup
  have hne0 : ∀ k ∈ (initFiles files {}).file_stats.map Prod.fst, k ≠ "" := by
    rw [hkeys0]
    intro k hk
    obtain ⟨f, hf, rfl⟩ := List.mem_map.mp hk
    exact hne f hf
  have hdecomp := runUpdates_stats_decomp us (initFiles files {}) hnd0 hne0
  constructor
  · have hcons := runUpdates_conserves us (initFiles files {})
    have htb0 : (initFiles files {}).transferred_bytes = 0 := rfl
    have hsum0 : sumTransferred (initFiles files {}).file_stats = 0 := by
      rw [hstats0]
      simp only [sumTransferred, List.map_map]
      rw [show ((fun p : String × FileStat => p.2.transferred_bytes) ∘
          (fun f : FileEntry => (f.uuid, initRecord f))) = (fun _ => (0 : Int))
          from rfl]
      simp
    have hsumF : sumTransferred (runUpdates (initFiles files {}) us).file_stats =
        (files.map FileEntry.sizeOr0).sum := by
      rw [hdecomp, hstats0, List.map_map]
      simp only [sumTransferred, List.map_map]
      congr 1
      apply List.map_congr_left
      intro f hf
      obtain ⟨ps, ts, hfilter, hps⟩ := hproto f hf
      simp only [Function.comp]
      rw [hfilter]
      exact (entryStep_fold_protocol f.uuid f.sizeOr0 none ts ps (initRecord f)
        rfl (hsz f hf) hps).1
    omega
  · have hcompl := runUpdates_completed us (initFiles files {})
    have hcomp0 : (initFiles files {}).completed_files = 0 := rfl
    have hcount : us.countP
        (isCountedCompletion ((initFiles files {}).file_stats.map Prod.fst)) =
        files.length := by
      rw [hkeys0]
      have hstep1 : us.countP (isCountedCompletion (files.map FileEntry.uuid)) =
          us.countP (fun u => isSuccCompletion u &&
            (files.map FileEntry.uuid).contains u.keyOf) := by
        apply List.countP_congr
        intro u _
        rw [isCountedCompletion_eq]
        constructor
        · intro h
          simp only [Bool.and_eq_true] at h ⊢
          exact ⟨h.1.1, h.2⟩
        · intro h
          simp only [Bool.and_eq_true] at h ⊢
          have hmem : u.keyOf ∈ files.map FileEntry.uuid := by
            simpa [List.contains_iff_exists_mem_beq, beq_iff_eq] using h.2
          obtain ⟨f, hf, hfe⟩ := List.mem_map.mp hmem
          have : u.keyOf ≠ "" := by
            rw [← hfe]
            exact hne f hf
          exact ⟨⟨h.1, by simpa using this⟩, h.2⟩
      rw [hstep1, countP_contains_split (files.map FileEntry.uuid) hnodup us,
        List.map_map]
      have hones : (files.map ((fun k => us.countP
          (fun u => isSuccCompletion u && (u.keyOf == k))) ∘ FileEntry.uuid)) =
          files.map (fun _ => (1 : Nat)) := by
        apply List.map_congr_left
        intro f hf
        obtain ⟨ps, ts, hfilter, hps⟩ := hproto f hf
        exact countP_succ_completion_of_protocol us f.uuid ps none ts hfilter
          (fun p hp => ((hps p hp).imp (fun v hv => hv.1)))
      rw [hones, List.map_const', List.sum_replicate, smul_eq_mul, mul_one]
    rw [hcount] at hcompl
    omega

/-- Witness for c2_progress_conservation: two files of sizes 5 and 3, one
partial report of 2 bytes on the first, then successful completions; the
aggregate ends at 8 bytes transferred and 2 completed files. -/
theorem c2_progress_conservation_witness :
    (runUpdates (initFiles filesC2w {}) updatesC2w).transferred_bytes = 8 ∧
    (runUpdates (initFiles filesC2w {}) updatesC2w).completed_files = 2 := by
  have h := c2_progress_conservation filesC2w updatesC2w (by decide) (by decide)
    (by decide)
    (by
      intro f hf
      fin_cases hf
      · refine ⟨[.progress "u1" 2 none], 10, rfl, ?_⟩
        intro p hp
        simp only [List.mem_singleton] at hp
        subst hp
        exact ⟨2, rfl, by norm_num [FileEntry.sizeOr0]⟩
      · exact ⟨[], 11, rfl, by intro p hp; cases hp⟩)
  exact ⟨h.1.trans (by decide), h.2.trans (by decide)⟩

/-- Claim C2, counterexample: two files declaring sizes 5 and 7 but sharing
the uuid "u" (the claim as stated quantifies over every file list); each
receives one mark_file_completed(success=True), yet the final aggregate
transferred_bytes is 7, not the declared total 12, because the second
record overwrote the first in the uuid-keyed map. -/
theorem c2_counterexample :
    (runUpdates (initFiles filesC2 {}) updatesC2).transferred_bytes = 7 ∧
    (initFiles filesC2 {}).total_bytes = 12 ∧ ((7 : Int) ≠ 12) := by
  exact ⟨by decide, by decide, by decide⟩
